import Mathlib

/-!
# cpp-simple-vector: `ArrayPtr` and `SimpleVector`

A shallow embedding of `src/simple-vector/array_ptr.h` and
`src/simple-vector/simple_vector.h`.

Modelling decisions.

* The free store is a list of blocks. The address of a block is its index in
  the list; `new Type[n]` appends a block of `n` cells, so the address it
  returns is never one that is in use or was in use before. `delete[]` turns
  the entry into `none`.
* A `Type*` is a block address (or null) together with an element offset.
  Reading or writing a cell outside a live block, and `delete[]` of an
  address that is not a live block, is undefined behaviour in C++; here the
  operation returns `Fault.undefined_behaviour`.
* `assert(...)` is kept as a check that returns `Fault.assertion`.
* A size is a `Nat`. A block of `2^63` elements cannot be allocated, so
  `size_ * 2` does not wrap on a vector that exists. The argument of `Resize`
  is the caller's number, and `new_size * 2` is computed in `size_t`: it wraps
  modulo `2^64` (a 64-bit `size_t`). `new` is assumed to succeed.
* The cells of `new Type[n]` hold `default`. Moving an element is modelled as
  copying its value: the moved-from cell keeps its old value.
* An argument of type `const Type&` or `Type&&` of `PushBack` and `Insert` is a
  `Ref`: a reference to an object outside the store, which keeps its value, or
  a reference to a cell of the store, which is read where the code reads it.
* An object (`ArrayPtr`, `SimpleVector`) is a value of a structure. A method
  takes the store and `*this` and returns the new store and the new `*this`
  (and the new state of a second object it changes).
-/

namespace SimpleVectorModel

/-- The ways an operation can fail to return normally. -/
inductive Fault where
  | out_of_range
  | assertion
  | undefined_behaviour
  deriving DecidableEq, Repr

/-- The free store: block `a` is `some cells` while it is allocated. -/
abbrev Heap (T : Type) := List (Option (List T))

/-- A `Type*`: the block it points into (`none` for a null pointer) and the element offset. -/
structure Ptr where
  base : Option Nat
  off : Nat
  deriving DecidableEq, Repr

/-- Pointer arithmetic `p + n`. -/
def Ptr.add (p : Ptr) (n : Nat) : Ptr := ⟨p.base, p.off + n⟩

/-- The decrement `--p`; stepping before the start of a block is undefined. -/
def Ptr.dec (p : Ptr) : Except Fault Ptr :=
  if p.off = 0 then .error .undefined_behaviour else .ok ⟨p.base, p.off - 1⟩

/-- Pointer difference `p - q` of two pointers into the same block. -/
def Ptr.diff (p q : Ptr) : Nat := p.off - q.off

/-- Comparison `p <= q` of two pointers into the same block. -/
def Ptr.le (p q : Ptr) : Bool := decide (p.base = q.base) && decide (p.off ≤ q.off)

/-- Comparison `p < q` of two pointers into the same block. -/
def Ptr.lt (p q : Ptr) : Bool := decide (p.base = q.base) && decide (p.off < q.off)

/-- The cells of the live block at an address; `none` for null and for a block that is not live. -/
def Heap.block {T : Type} (h : Heap T) : Option Nat → Option (List T)
  | none => none
  | some a => h[a]?.join

/-- Allocated slot count behind an address; `none` when there is no live block. -/
def Heap.slots {T : Type} (h : Heap T) (p : Option Nat) : Option Nat :=
  (h.block p).map List.length

/-- Reading `*p`. -/
def Heap.load {T : Type} (h : Heap T) (p : Ptr) : Except Fault T :=
  match h.block p.base with
  | some cells =>
    match cells[p.off]? with
    | some x => .ok x
    | none => .error .undefined_behaviour
  | none => .error .undefined_behaviour

/-- Writing `*p = x`. -/
def Heap.store {T : Type} (h : Heap T) (p : Ptr) (x : T) : Except Fault (Heap T) :=
  match p.base with
  | some a =>
    match h.block (some a) with
    | some cells =>
      if p.off < cells.length then .ok (h.set a (some (cells.set p.off x)))
      else .error .undefined_behaviour
    | none => .error .undefined_behaviour
  | none => .error .undefined_behaviour

/-- The expression `new Type[n]`: a fresh block of `n` cells and its address. -/
def Heap.new_array {T : Type} [Inhabited T] (h : Heap T) (n : Nat) : Heap T × Nat :=
  (h ++ [some (List.replicate n default)], h.length)

/-- The statement `delete[] p`: nothing for null, frees a live block. -/
def Heap.delete_array {T : Type} (h : Heap T) : Option Nat → Except Fault (Heap T)
  | none => .ok h
  | some a =>
    match h.block (some a) with
    | some _ => .ok (h.set a none)
    | none => .error .undefined_behaviour

/-- A `const Type&` or `Type&&` argument: a reference to an object outside the store (a
local variable, a temporary), given by the value it holds, or a reference to a cell of the
store (an element of a vector). -/
inductive Ref (T : Type) where
  | object (x : T)
  | cell (p : Ptr)
  deriving DecidableEq, Repr

/-- Reading through a reference. -/
def Ref.read {T : Type} (h : Heap T) : Ref T → Except Fault T
  | .object x => .ok x
  | .cell p => h.load p

/-- A product computed in `size_t`: it wraps modulo `2^64`. -/
def size_t_wrap (n : Nat) : Nat := n % 2 ^ 64

/-- The check `assert(c)`. -/
def cassert (c : Bool) : Except Fault Unit :=
  if c then .ok () else .error .assertion

/-! ## `<algorithm>` on pointer ranges -/

/-- The loop of `std::fill`: `n` cells from `first` on are set to `value`. -/
def fill_n {T : Type} (h : Heap T) (first : Ptr) (value : T) : Nat → Except Fault (Heap T)
  | 0 => .ok h
  | n + 1 => do
    let h1 ← h.store first value
    fill_n h1 (first.add 1) value n

/-- `std::fill(first, last, value)`. -/
def std_fill {T : Type} (h : Heap T) (first last : Ptr) (value : T) : Except Fault (Heap T) :=
  fill_n h first value (last.diff first)

/-- The loop of `std::copy`: `*d_first++ = *first++`, `n` times. -/
def copy_n {T : Type} (h : Heap T) (first d_first : Ptr) : Nat → Except Fault (Heap T)
  | 0 => .ok h
  | n + 1 => do
    let x ← h.load first
    let h1 ← h.store d_first x
    copy_n h1 (first.add 1) (d_first.add 1) n

/-- `std::copy(first, last, d_first)`. -/
def std_copy {T : Type} (h : Heap T) (first last d_first : Ptr) : Except Fault (Heap T) :=
  copy_n h first d_first (last.diff first)

/-- `std::move(first, last, d_first)`: the loop of `std::copy` with element moves. -/
def std_move {T : Type} (h : Heap T) (first last d_first : Ptr) : Except Fault (Heap T) :=
  copy_n h first d_first (last.diff first)

/-- The loop of `std::copy_backward`: `*(--d_last) = *(--last)`, `n` times. -/
def copy_backward_n {T : Type} (h : Heap T) (last d_last : Ptr) : Nat → Except Fault (Heap T)
  | 0 => .ok h
  | n + 1 => do
    let last ← last.dec
    let d_last ← d_last.dec
    let x ← h.load last
    let h1 ← h.store d_last x
    copy_backward_n h1 last d_last n

/-- `std::copy_backward(first, last, d_last)`. -/
def std_copy_backward {T : Type} (h : Heap T) (first last d_last : Ptr) : Except Fault (Heap T) :=
  copy_backward_n h last d_last (last.diff first)

/-- `std::move_backward(first, last, d_last)`: the loop of `std::copy_backward` with element moves. -/
def std_move_backward {T : Type} (h : Heap T) (first last d_last : Ptr) : Except Fault (Heap T) :=
  copy_backward_n h last d_last (last.diff first)

/-- The loop of `std::copy` from an `initializer_list`, which is not in the store. -/
def copy_list {T : Type} (h : Heap T) (d_first : Ptr) : List T → Except Fault (Heap T)
  | [] => .ok h
  | x :: xs => do
    let h1 ← h.store d_first x
    copy_list h1 (d_first.add 1) xs

/-- The loop of `std::equal`: false at the first pair that differs. -/
def equal_n {T : Type} [DecidableEq T] (h : Heap T) (first1 first2 : Ptr) : Nat → Except Fault Bool
  | 0 => .ok true
  | n + 1 => do
    let x ← h.load first1
    let y ← h.load first2
    if x = y then equal_n h (first1.add 1) (first2.add 1) n else pure false

/-- `std::equal(first1, last1, first2)`. -/
def std_equal {T : Type} [DecidableEq T] (h : Heap T) (first1 last1 first2 : Ptr) : Except Fault Bool :=
  equal_n h first1 first2 (last1.diff first1)

/-- The loop of `std::lexicographical_compare` over ranges of `n1` and `n2` elements. -/
def lexicographical_compare_n {T : Type} [LT T] [DecidableRel (fun (a b : T) => a < b)]
    (h : Heap T) (first1 first2 : Ptr) : Nat → Nat → Except Fault Bool
  | 0, 0 => .ok false
  | 0, _ + 1 => .ok true
  | _ + 1, 0 => .ok false
  | n1 + 1, n2 + 1 => do
    let x ← h.load first1
    let y ← h.load first2
    if x < y then pure true
    else if y < x then pure false
    else lexicographical_compare_n h (first1.add 1) (first2.add 1) n1 n2

/-- `std::lexicographical_compare(first1, last1, first2, last2)`. -/
def std_lexicographical_compare {T : Type} [LT T] [DecidableRel (fun (a b : T) => a < b)]
    (h : Heap T) (first1 last1 first2 last2 : Ptr) : Except Fault Bool :=
  lexicographical_compare_n h first1 first2 (last1.diff first1) (last2.diff first2)

/-! ## `array_ptr.h` -/

/-- `ArrayPtr<Type>`: the member `raw_ptr_`, null or the address of a block. -/
structure ArrayPtr where
  raw_ptr_ : Option Nat := none
  deriving DecidableEq, Repr

/-- `ArrayPtr(size_t size)`. -/
def ArrayPtr.ctor_size {T : Type} [Inhabited T] (h : Heap T) (size : Nat) : Heap T × ArrayPtr :=
  if size = 0 then (h, { raw_ptr_ := none })
  else
    let r := h.new_array size
    (r.1, { raw_ptr_ := some r.2 })

/-- `ArrayPtr(Type* raw_ptr)`. -/
def ArrayPtr.ctor_raw (raw_ptr : Option Nat) : ArrayPtr := { raw_ptr_ := raw_ptr }

/-- `ArrayPtr(ArrayPtr&& other)`: the new object and the new state of `other`. -/
def ArrayPtr.ctor_move (other : ArrayPtr) : ArrayPtr × ArrayPtr :=
  ({ raw_ptr_ := other.raw_ptr_ }, { raw_ptr_ := none })

/-- `~ArrayPtr()`. -/
def ArrayPtr.dtor {T : Type} (h : Heap T) (this : ArrayPtr) : Except Fault (Heap T) :=
  h.delete_array this.raw_ptr_

/-- `operator=(ArrayPtr&& other)` on two distinct objects,
`raw_ptr_ = exchange(other.raw_ptr_, raw_ptr_)`: the new `*this` and the new `other`. -/
def ArrayPtr.move_assign (this other : ArrayPtr) : ArrayPtr × ArrayPtr :=
  ({ raw_ptr_ := other.raw_ptr_ }, { raw_ptr_ := this.raw_ptr_ })

/-- `Release()`: the returned raw pointer and the new `*this`. -/
def ArrayPtr.Release (this : ArrayPtr) : Option Nat × ArrayPtr :=
  (this.raw_ptr_, { raw_ptr_ := none })

/-- `Get()`. -/
def ArrayPtr.Get (this : ArrayPtr) : Ptr := ⟨this.raw_ptr_, 0⟩

/-- `operator[]` of `ArrayPtr`, read. -/
def ArrayPtr.index {T : Type} (h : Heap T) (this : ArrayPtr) (index : Nat) : Except Fault T :=
  h.load (this.Get.add index)

/-- `explicit operator bool()`. -/
def ArrayPtr.to_bool (this : ArrayPtr) : Bool := this.raw_ptr_.isSome

/-- `swap(ArrayPtr& other)`: the new `*this` and the new `other`. -/
def ArrayPtr.swap (this other : ArrayPtr) : ArrayPtr × ArrayPtr :=
  ({ raw_ptr_ := other.raw_ptr_ }, { raw_ptr_ := this.raw_ptr_ })

/-! ## `simple_vector.h` -/

/-- `ReserveProxyObj`. -/
structure ReserveProxyObj where
  capacity_reserve_ : Nat := 0
  deriving DecidableEq, Repr

/-- `ReserveProxyObj::GetCapacity()`. -/
def ReserveProxyObj.GetCapacity (this : ReserveProxyObj) : Nat := this.capacity_reserve_

/-- The free function `Reserve(capacity_to_reserve)`. -/
def Reserve (capacity_to_reserve : Nat) : ReserveProxyObj :=
  { capacity_reserve_ := capacity_to_reserve }

/-- `SimpleVector<Type>`: the three data members with their default member initialisers. -/
structure SimpleVector where
  items_ : ArrayPtr := {}
  size_ : Nat := 0
  capacity_ : Nat := 0
  deriving DecidableEq, Repr

namespace SimpleVector

/-- `SimpleVector() noexcept = default`. -/
def ctor_default : SimpleVector := {}

/-- `GetSize()`. -/
def GetSize (this : SimpleVector) : Nat := this.size_

/-- `GetCapacity()`. -/
def GetCapacity (this : SimpleVector) : Nat := this.capacity_

/-- `IsEmpty()`. -/
def IsEmpty (this : SimpleVector) : Bool := decide (this.size_ = 0)

/-- `begin()` and `cbegin()`. -/
def begin (this : SimpleVector) : Ptr := this.items_.Get

/-- `end()` and `cend()`. -/
def end_ (this : SimpleVector) : Ptr := this.items_.Get.add this.size_

/-- `SimpleVector(size_t size, const Type& value)`. -/
def ctor_fill {T : Type} [Inhabited T] (h : Heap T) (size : Nat) (value : T) :
    Except Fault (Heap T × SimpleVector) := do
  let r := ArrayPtr.ctor_size h size
  let this : SimpleVector := { items_ := r.2, size_ := size, capacity_ := size }
  let h1 ← std_fill r.1 this.items_.Get (this.items_.Get.add size) value
  pure (h1, this)

/-- `explicit SimpleVector(size_t size)`. -/
def ctor_size {T : Type} [Inhabited T] (h : Heap T) (size : Nat) :
    Except Fault (Heap T × SimpleVector) :=
  ctor_fill h size (default : T)

/-- `SimpleVector(initializer_list<Type> init)`. -/
def ctor_list {T : Type} [Inhabited T] (h : Heap T) (init : List T) :
    Except Fault (Heap T × SimpleVector) := do
  let r := ArrayPtr.ctor_size h init.length
  let this : SimpleVector := { items_ := r.2, size_ := init.length, capacity_ := init.length }
  let h1 ← copy_list r.1 this.items_.Get init
  pure (h1, this)

/-- `swap(SimpleVector& other)`: the new `*this` and the new `other`. -/
def swap (this other : SimpleVector) : SimpleVector × SimpleVector :=
  let p := ArrayPtr.swap this.items_ other.items_
  ({ items_ := p.1, size_ := other.size_, capacity_ := other.capacity_ },
   { items_ := p.2, size_ := this.size_, capacity_ := this.capacity_ })

/-- The destructor, which is the destructor of the member `items_`. -/
def dtor {T : Type} (h : Heap T) (this : SimpleVector) : Except Fault (Heap T) :=
  this.items_.dtor h

/-- `SimpleVector(const SimpleVector& other)`: the store and the new object; `other` is const. -/
def ctor_copy {T : Type} [Inhabited T] (h : Heap T) (other : SimpleVector) :
    Except Fault (Heap T × SimpleVector) := do
  let this : SimpleVector := {}
  cassert (decide (this.size_ = 0))
  let (h1, cop) ← ctor_size h other.GetSize
  let h2 ← std_copy h1 other.items_.Get (other.items_.Get.add other.GetSize) cop.items_.Get
  let cop := { cop with capacity_ := other.capacity_ }
  let (this, cop) := this.swap cop
  let h3 ← cop.dtor h2
  pure (h3, this)

/-- `SimpleVector(SimpleVector&& other)`: the new object and the new state of `other`. -/
def ctor_move (other : SimpleVector) : Except Fault (SimpleVector × SimpleVector) := do
  let this : SimpleVector := {}
  cassert (decide (this.size_ = 0))
  let p := ArrayPtr.move_assign this.items_ other.items_
  pure ({ items_ := p.1, size_ := other.size_, capacity_ := other.capacity_ },
        { items_ := p.2, size_ := 0, capacity_ := 0 })

/-- The private `ReCapacity(size_t new_capacity)`. -/
def ReCapacity {T : Type} [Inhabited T] (h : Heap T) (this : SimpleVector) (new_capacity : Nat) :
    Except Fault (Heap T × SimpleVector) := do
  let r := ArrayPtr.ctor_size h new_capacity
  let new_cont_ := r.2
  let h1 ← std_move r.1 this.items_.Get (this.items_.Get.add this.size_) new_cont_.Get
  let p := ArrayPtr.swap this.items_ new_cont_
  let this := { this with items_ := p.1, capacity_ := new_capacity }
  let h2 ← ArrayPtr.dtor h1 p.2
  pure (h2, this)

/-- `Reserve(size_t new_capacity)`. -/
def Reserve {T : Type} [Inhabited T] (h : Heap T) (this : SimpleVector) (new_capacity : Nat) :
    Except Fault (Heap T × SimpleVector) :=
  if new_capacity > this.capacity_ then ReCapacity h this new_capacity
  else pure (h, this)

/-- `SimpleVector(ReserveProxyObj obj)`. -/
def ctor_reserve {T : Type} [Inhabited T] (h : Heap T) (obj : ReserveProxyObj) :
    Except Fault (Heap T × SimpleVector) :=
  Reserve h {} obj.GetCapacity

/-- `Clear()`. -/
def Clear (this : SimpleVector) : SimpleVector := { this with size_ := 0 }

/-- `operator=(const SimpleVector& rhs)`. The argument is `none` when `rhs` is
`*this` itself and `some rhs` for another object. -/
def copy_assign {T : Type} [Inhabited T] (h : Heap T) (this : SimpleVector)
    (rhs : Option SimpleVector) : Except Fault (Heap T × SimpleVector) :=
  match rhs with
  | none => pure (h, this)
  | some rhs =>
    if rhs.IsEmpty then pure (h, this.Clear)
    else do
      let (h1, cop) ← ctor_copy h rhs
      let (this, cop) := this.swap cop
      let h2 ← cop.dtor h1
      pure (h2, this)

/-- `operator=(SimpleVector&&) = default` on two distinct objects: member-wise move
assignment, `ArrayPtr::operator=(ArrayPtr&&)` for `items_` and a copy for the two
`size_t` members. The new `*this` and the new state of the source. -/
def move_assign (this other : SimpleVector) : SimpleVector × SimpleVector :=
  let p := ArrayPtr.move_assign this.items_ other.items_
  ({ items_ := p.1, size_ := other.size_, capacity_ := other.capacity_ },
   { items_ := p.2, size_ := other.size_, capacity_ := other.capacity_ })

/-- `operator[]`, read. -/
def index {T : Type} (h : Heap T) (this : SimpleVector) (index : Nat) : Except Fault T := do
  cassert (decide (index < this.size_))
  this.items_.index h index

/-- `operator[]` followed by an assignment through the returned reference. -/
def index_write {T : Type} (h : Heap T) (this : SimpleVector) (index : Nat) (x : T) :
    Except Fault (Heap T) := do
  cassert (decide (index < this.size_))
  h.store (this.items_.Get.add index) x

/-- `At(size_t index)`, read. -/
def At {T : Type} (h : Heap T) (this : SimpleVector) (index : Nat) : Except Fault T :=
  if index ≥ this.size_ then .error .out_of_range
  else this.items_.index h index

/-- `PushBack`, both overloads. -/
def PushBack {T : Type} [Inhabited T] (h : Heap T) (this : SimpleVector) (item : Ref T) :
    Except Fault (Heap T × SimpleVector) := do
  let (h1, this) ←
    if this.size_ = this.capacity_ then ReCapacity h this (max (this.size_ * 2) 1)
    else pure (h, this)
  let x ← item.read h1
  let h2 ← h1.store this.end_ x
  pure (h2, { this with size_ := this.size_ + 1 })

/-- `Insert(ConstIterator pos, const Type& value)`: the store, the new `*this` and the
returned iterator. -/
def Insert {T : Type} [Inhabited T] (h : Heap T) (this : SimpleVector) (pos : Ptr)
    (value : Ref T) : Except Fault (Heap T × SimpleVector × Ptr) := do
  cassert (this.begin.le pos && pos.le this.end_)
  let step_ := pos.diff this.begin
  let (h1, this) ←
    if this.capacity_ = this.size_ then ReCapacity h this (max (this.size_ * 2) 1)
    else pure (h, this)
  let h2 ← std_copy_backward h1 (this.begin.add step_) this.end_ (this.end_.add 1)
  let it := this.begin.add step_
  let x ← value.read h2
  let h3 ← h2.store it x
  pure (h3, { this with size_ := this.size_ + 1 }, it)

/-- `Insert(ConstIterator pos, Type&& value)`: the store, the new `*this` and the
returned iterator. -/
def Insert_move {T : Type} [Inhabited T] (h : Heap T) (this : SimpleVector) (pos : Ptr)
    (value : Ref T) : Except Fault (Heap T × SimpleVector × Ptr) := do
  cassert (this.begin.le pos && pos.le this.end_)
  let step_ := pos.diff this.begin
  let (h1, this) ←
    if this.capacity_ = this.size_ then ReCapacity h this (max (this.size_ * 2) 1)
    else pure (h, this)
  let h2 ← std_move_backward h1 (this.begin.add step_) this.end_ (this.end_.add 1)
  let it := this.begin.add step_
  let x ← value.read h2
  let h3 ← h2.store it x
  pure (h3, { this with size_ := this.size_ + 1 }, it)

/-- `PopBack()`. -/
def PopBack (this : SimpleVector) : Except Fault SimpleVector := do
  cassert (!this.IsEmpty)
  pure { this with size_ := this.size_ - 1 }

/-- `Erase(ConstIterator pos)`: the store, the new `*this` and the returned iterator. -/
def Erase {T : Type} (h : Heap T) (this : SimpleVector) (pos : Ptr) :
    Except Fault (Heap T × SimpleVector × Ptr) := do
  cassert (this.begin.le pos && pos.lt this.end_)
  let step_ := pos.diff this.begin
  let it := this.begin.add step_
  let h1 ← std_move h (it.add 1) this.end_ it
  let this := { this with size_ := this.size_ - 1 }
  pure (h1, this, this.begin.add step_)

/-- `Resize(size_t new_size)`. -/
def Resize {T : Type} [Inhabited T] (h : Heap T) (this : SimpleVector) (new_size : Nat) :
    Except Fault (Heap T × SimpleVector) := do
  let (h1, this) ←
    if this.size_ < new_size then ReCapacity h this (size_t_wrap (new_size * 2))
    else pure (h, this)
  pure (h1, { this with size_ := new_size })

/-- `operator==`. -/
def eq {T : Type} [DecidableEq T] (h : Heap T) (lhs rhs : SimpleVector) : Except Fault Bool :=
  std_equal h lhs.begin lhs.end_ rhs.begin

/-- `operator!=`. -/
def ne {T : Type} [DecidableEq T] (h : Heap T) (lhs rhs : SimpleVector) : Except Fault Bool := do
  let b ← eq h lhs rhs
  pure (!b)

/-- `operator<`. -/
def lt {T : Type} [LT T] [DecidableRel (fun (a b : T) => a < b)]
    (h : Heap T) (lhs rhs : SimpleVector) : Except Fault Bool :=
  std_lexicographical_compare h lhs.begin lhs.end_ rhs.begin rhs.end_

/-- `operator<=`. -/
def le {T : Type} [LT T] [DecidableRel (fun (a b : T) => a < b)]
    (h : Heap T) (lhs rhs : SimpleVector) : Except Fault Bool := do
  let b ← lt h rhs lhs
  pure (!b)

/-- `operator>`. -/
def gt {T : Type} [LT T] [DecidableRel (fun (a b : T) => a < b)]
    (h : Heap T) (lhs rhs : SimpleVector) : Except Fault Bool :=
  lt h rhs lhs

/-- `operator>=`. -/
def ge {T : Type} [LT T] [DecidableRel (fun (a b : T) => a < b)]
    (h : Heap T) (lhs rhs : SimpleVector) : Except Fault Bool := do
  let b ← lt h lhs rhs
  pure (!b)

/-! ## Observations of a vector in a store -/

/-- The cells of the vector's buffer; empty when it has no live block. -/
def cells {T : Type} (h : Heap T) (this : SimpleVector) : List T :=
  (h.block this.items_.raw_ptr_).getD []

/-- The live elements: the first `size_` cells of the buffer. -/
def toList {T : Type} (h : Heap T) (this : SimpleVector) : List T :=
  (cells h this).take this.size_

/-- The buffer's allocated slot count: 0 for a null `items_`, the block's length otherwise;
`none` when `items_` is not null and not a live block. -/
def allocated {T : Type} (h : Heap T) (this : SimpleVector) : Option Nat :=
  match this.items_.raw_ptr_ with
  | none => some 0
  | some a => h.slots (some a)

/-- The `size_` live elements are all inside the buffer. -/
def Live {T : Type} (h : Heap T) (this : SimpleVector) : Prop :=
  match allocated h this with
  | some n => this.size_ ≤ n
  | none => False

instance {T : Type} (h : Heap T) (this : SimpleVector) : Decidable (Live h this) :=
  match hA : allocated h this with
  | some n => decidable_of_iff (this.size_ ≤ n) (by simp [Live, hA])
  | none => isFalse (by simp [Live, hA])

/-- Well-formed: the allocated slot count is `capacity_`, and `size_ <= capacity_`. -/
def WF {T : Type} (h : Heap T) (this : SimpleVector) : Prop :=
  allocated h this = some this.capacity_ ∧ this.size_ ≤ this.capacity_

instance {T : Type} (h : Heap T) (this : SimpleVector) : Decidable (WF h this) :=
  inferInstanceAs (Decidable (allocated h this = some this.capacity_ ∧ this.size_ ≤ this.capacity_))

/-! ## A caller of `PushBack` -/

/-- The caller's loop `for (const auto& x : values) v.PushBack(x);` over a sequence of values
that is not stored in a buffer of the store. -/
def PushBack_each {T : Type} [Inhabited T] (h : Heap T) (this : SimpleVector) :
    List T → Except Fault (Heap T × SimpleVector)
  | [] => .ok (h, this)
  | x :: xs => do
    let (h1, this) ← PushBack h this (.object x)
    PushBack_each h1 this xs

end SimpleVector

/-! ## The store and the loops of `<algorithm>` -/

variable {T : Type}

theorem Heap.block_some_lt {h : Heap T} {a : Nat} {cs : List T}
    (hb : h.block (some a) = some cs) : a < h.length := by
  simp only [Heap.block, Option.join_eq_some] at hb
  by_contra hlt
  have : h[a]? = none := by simp; omega
  simp [this] at hb

theorem Heap.block_set_same (h : Heap T) (a : Nat) (v : Option (List T)) (ha : a < h.length) :
    Heap.block (h.set a v) (some a) = v := by
  simp [Heap.block, ha]

theorem Heap.block_set_ne (h : Heap T) (a b : Nat) (v : Option (List T)) (hne : a ≠ b) :
    Heap.block (h.set a v) (some b) = Heap.block h (some b) := by
  simp [Heap.block, List.getElem?_set_ne hne]

theorem Heap.block_append_lt (h : Heap T) (x : Option (List T)) (a : Nat) (ha : a < h.length) :
    Heap.block (h ++ [x]) (some a) = Heap.block h (some a) := by
  simp [Heap.block, List.getElem?_append_left ha]

theorem Heap.block_append_new (h : Heap T) (x : Option (List T)) :
    Heap.block (h ++ [x]) (some h.length) = x := by
  simp [Heap.block]

theorem Heap.set_block_self {h : Heap T} {a : Nat} {cs : List T}
    (hb : h.block (some a) = some cs) : h.set a (some cs) = h := by
  have ha := Heap.block_some_lt hb
  apply List.ext_getElem?
  intro i
  by_cases hi : i = a
  · subst hi
    simp only [Heap.block, Option.join_eq_some] at hb
    simp [ha, hb]
  · simp [List.getElem?_set_ne (Ne.symm hi)]

theorem splice_step (ds cs : List T) (os od n : Nat) (x : T) (hx : cs[os]? = some x)
    (hod : od < ds.length) :
    (ds.set od x).take (od + 1) ++ (cs.drop (os + 1)).take n ++ (ds.set od x).drop (od + 1 + n)
      = ds.take od ++ (cs.drop os).take (n + 1) ++ ds.drop (od + (n + 1)) := by
  have hos : os < cs.length := by
    by_contra hc
    rw [List.getElem?_eq_none (by omega)] at hx
    exact Option.noConfusion hx
  apply List.ext_getElem?
  intro i
  simp only [List.getElem?_append, List.getElem?_take, List.getElem?_drop, List.getElem?_set,
    List.length_append, List.length_take, List.length_drop, List.length_set]
  split_ifs <;> first | rfl | (exfalso; omega) | (congr 1; omega) | (rw [← hx]; congr 1; omega)

theorem Heap.load_eq {h : Heap T} {a : Nat} {cs : List T} (hb : h.block (some a) = some cs)
    (i : Nat) (hi : i < cs.length) : h.load ⟨some a, i⟩ = .ok (cs.get ⟨i, hi⟩) := by
  simp [Heap.load, hb, List.getElem?_eq_getElem hi]

theorem Heap.store_eq {h : Heap T} {a : Nat} {cs : List T} (hb : h.block (some a) = some cs)
    (i : Nat) (hi : i < cs.length) (x : T) :
    h.store ⟨some a, i⟩ x = .ok (h.set a (some (cs.set i x))) := by
  simp [Heap.store, hb, hi]

theorem copy_n_spec (n : Nat) : ∀ (h : Heap T) (s d os od : Nat) (cs ds : List T),
    h.block (some s) = some cs → h.block (some d) = some ds → (s = d → od ≤ os) →
    os + n ≤ cs.length → od + n ≤ ds.length →
    copy_n h ⟨some s, os⟩ ⟨some d, od⟩ n
      = .ok (h.set d (some (ds.take od ++ (cs.drop os).take n ++ ds.drop (od + n)))) := by
  induction n with
  | zero =>
    intro h s d os od cs ds _ hd _ _ _
    simp [copy_n, Heap.set_block_self hd]
  | succ n ih =>
    intro h s d os od cs ds hs hd hsd hos hod
    have hos1 : os < cs.length := by omega
    have hod1 : od < ds.length := by omega
    have hdl := Heap.block_some_lt hd
    simp only [copy_n, Heap.load_eq hs os hos1, Heap.store_eq hd od hod1, bind, Except.bind, Ptr.add]
    have hd1 : Heap.block (h.set d (some (ds.set od (cs.get ⟨os, hos1⟩)))) (some d)
        = some (ds.set od (cs.get ⟨os, hos1⟩)) := Heap.block_set_same h d _ hdl
    have hx : cs[os]? = some (cs.get ⟨os, hos1⟩) := by simp [List.getElem?_eq_getElem hos1]
    by_cases hsd1 : s = d
    · subst hsd1
      have hcd : cs = ds := by rw [hs] at hd; exact Option.some.inj hd
      subst hcd
      have hle := hsd rfl
      rw [ih _ s s (os + 1) (od + 1) _ _ hd1 hd1 (by intro _; omega) (by simp; omega) (by simp; omega)]
      rw [List.set_set, List.drop_set_of_lt _ _ (by omega : od < os + 1), splice_step _ _ _ _ _ _ hx hod1]
    · have hs1 : Heap.block (h.set d (some (ds.set od (cs.get ⟨os, hos1⟩)))) (some s) = some cs := by
        rw [Heap.block_set_ne _ _ _ _ (Ne.symm hsd1)]; exact hs
      rw [ih _ s d (os + 1) (od + 1) _ _ hs1 hd1 (by intro e; exact absurd e hsd1) (by omega)
        (by simp; omega)]
      rw [List.set_set, splice_step _ _ _ _ _ _ hx hod1]

theorem splice_step_back (ds cs : List T) (os od n : Nat) (x : T) (hx : cs[os + n]? = some x)
    (hod : od + n < ds.length) :
    (ds.set (od + n) x).take od ++ (cs.drop os).take n ++ (ds.set (od + n) x).drop (od + n)
      = ds.take od ++ (cs.drop os).take (n + 1) ++ ds.drop (od + (n + 1)) := by
  have hos : os + n < cs.length := by
    by_contra hc
    rw [List.getElem?_eq_none (by omega)] at hx
    exact Option.noConfusion hx
  apply List.ext_getElem?
  intro i
  simp only [List.getElem?_append, List.getElem?_take, List.getElem?_drop, List.getElem?_set,
    List.length_append, List.length_take, List.length_drop, List.length_set]
  split_ifs <;> first | rfl | (exfalso; omega) | (congr 1; omega) | (rw [← hx]; congr 1; omega)

theorem drop_take_set_ge (cs : List T) (os n m : Nat) (x : T) (hm : os + n ≤ m) :
    ((cs.set m x).drop os).take n = (cs.drop os).take n := by
  apply List.ext_getElem?
  intro i
  simp only [List.getElem?_take, List.getElem?_drop, List.getElem?_set]
  split_ifs <;> first | rfl | (exfalso; omega)

theorem Ptr.dec_eq (b : Option Nat) (o : Nat) : Ptr.dec ⟨b, o + 1⟩ = .ok ⟨b, o⟩ := by
  simp [Ptr.dec]

theorem copy_backward_n_spec (n : Nat) : ∀ (h : Heap T) (s d os od : Nat) (cs ds : List T),
    h.block (some s) = some cs → h.block (some d) = some ds → (s = d → os ≤ od) →
    os + n ≤ cs.length → od + n ≤ ds.length →
    copy_backward_n h ⟨some s, os + n⟩ ⟨some d, od + n⟩ n
      = .ok (h.set d (some (ds.take od ++ (cs.drop os).take n ++ ds.drop (od + n)))) := by
  induction n with
  | zero =>
    intro h s d os od cs ds _ hd _ _ _
    simp [copy_backward_n, Heap.set_block_self hd]
  | succ n ih =>
    intro h s d os od cs ds hs hd hsd hos hod
    have hos1 : os + n < cs.length := by omega
    have hod1 : od + n < ds.length := by omega
    have hdl := Heap.block_some_lt hd
    have e1 : os + (n + 1) = (os + n) + 1 := by omega
    have e2 : od + (n + 1) = (od + n) + 1 := by omega
    simp only [copy_backward_n, e1, e2, Ptr.dec_eq, Heap.load_eq hs (os + n) hos1,
      Heap.store_eq hd (od + n) hod1, bind, Except.bind]
    have hd1 : Heap.block (h.set d (some (ds.set (od + n) (cs.get ⟨os + n, hos1⟩)))) (some d)
        = some (ds.set (od + n) (cs.get ⟨os + n, hos1⟩)) := Heap.block_set_same h d _ hdl
    have hx : cs[os + n]? = some (cs.get ⟨os + n, hos1⟩) := by simp [List.getElem?_eq_getElem hos1]
    by_cases hsd1 : s = d
    · subst hsd1
      have hcd : cs = ds := by rw [hs] at hd; exact Option.some.inj hd
      subst hcd
      have hle := hsd rfl
      rw [ih _ s s os od _ _ hd1 hd1 (by intro _; omega) (by simp; omega) (by simp; omega)]
      rw [List.set_set, drop_take_set_ge _ _ _ _ _ (by omega), splice_step_back _ _ _ _ _ _ hx hod1]
      rfl
    · have hs1 : Heap.block (h.set d (some (ds.set (od + n) (cs.get ⟨os + n, hos1⟩)))) (some s)
          = some cs := by
        rw [Heap.block_set_ne _ _ _ _ (Ne.symm hsd1)]; exact hs
      rw [ih _ s d os od _ _ hs1 hd1 (by intro e; exact absurd e hsd1) (by omega) (by simp; omega)]
      rw [List.set_set, splice_step_back _ _ _ _ _ _ hx hod1]
      rfl

theorem fill_step (ds : List T) (od n : Nat) (x : T) (hod : od < ds.length) :
    (ds.set od x).take (od + 1) ++ List.replicate n x ++ (ds.set od x).drop (od + 1 + n)
      = ds.take od ++ List.replicate (n + 1) x ++ ds.drop (od + (n + 1)) := by
  apply List.ext_getElem?
  intro i
  simp only [List.getElem?_append, List.getElem?_take, List.getElem?_drop, List.getElem?_set,
    List.length_append, List.length_take, List.length_drop, List.length_set,
    List.getElem?_replicate, List.length_replicate]
  split_ifs <;> first | rfl | (exfalso; omega) | (congr 1; omega)

theorem fill_n_spec (n : Nat) : ∀ (h : Heap T) (d od : Nat) (ds : List T) (x : T),
    h.block (some d) = some ds → od + n ≤ ds.length →
    fill_n h ⟨some d, od⟩ x n
      = .ok (h.set d (some (ds.take od ++ List.replicate n x ++ ds.drop (od + n)))) := by
  induction n with
  | zero =>
    intro h d od ds x hd _
    simp [fill_n, Heap.set_block_self hd]
  | succ n ih =>
    intro h d od ds x hd hod
    have hod1 : od < ds.length := by omega
    have hdl := Heap.block_some_lt hd
    simp only [fill_n, Heap.store_eq hd od hod1, bind, Except.bind, Ptr.add]
    rw [ih _ d (od + 1) _ x (Heap.block_set_same h d _ hdl) (by simp; omega)]
    rw [List.set_set, fill_step _ _ _ _ hod1]

theorem copy_list_step (ds xs : List T) (od : Nat) (x : T) (hod : od < ds.length) :
    (ds.set od x).take (od + 1) ++ xs ++ (ds.set od x).drop (od + 1 + xs.length)
      = ds.take od ++ x :: xs ++ ds.drop (od + (xs.length + 1)) := by
  apply List.ext_getElem?
  intro i
  simp only [List.getElem?_append, List.getElem?_take, List.getElem?_drop, List.getElem?_set,
    List.length_append, List.length_take, List.length_drop, List.length_set, List.length_cons,
    List.getElem?_cons]
  split_ifs <;> first | rfl | (exfalso; omega) | (congr 1; omega)

theorem copy_list_spec (xs : List T) : ∀ (h : Heap T) (d od : Nat) (ds : List T),
    h.block (some d) = some ds → od + xs.length ≤ ds.length →
    copy_list h ⟨some d, od⟩ xs
      = .ok (h.set d (some (ds.take od ++ xs ++ ds.drop (od + xs.length)))) := by
  induction xs with
  | nil =>
    intro h d od ds hd _
    simp [copy_list, Heap.set_block_self hd]
  | cons x xs ih =>
    intro h d od ds hd hod
    have hod1 : od < ds.length := by simp at hod; omega
    have hdl := Heap.block_some_lt hd
    simp only [copy_list, Heap.store_eq hd od hod1, bind, Except.bind, Ptr.add]
    rw [ih _ d (od + 1) _ (Heap.block_set_same h d _ hdl) (by simp at hod ⊢; omega)]
    rw [List.set_set, copy_list_step _ _ _ _ hod1]
    simp

/-! ## Observations, `ReCapacity` and `PushBack` -/

theorem SimpleVector.Live_cases {h : Heap T} {v : SimpleVector} (hl : Live h v) :
    (v.items_.raw_ptr_ = none ∧ v.size_ = 0) ∨
    ∃ a cs, v.items_.raw_ptr_ = some a ∧ h.block (some a) = some cs ∧ v.size_ ≤ cs.length := by
  unfold Live allocated at hl
  cases hp : v.items_.raw_ptr_ with
  | none =>
    left
    simp only [hp] at hl
    exact ⟨rfl, by omega⟩
  | some a =>
    right
    simp only [hp, Heap.slots] at hl
    cases hb : h.block (some a) with
    | none => simp [hb] at hl
    | some cs =>
      simp only [hb, Option.map_some'] at hl
      exact ⟨a, cs, rfl, hb, hl⟩

theorem SimpleVector.WF_cases {h : Heap T} {v : SimpleVector} (hw : WF h v) :
    (v.items_.raw_ptr_ = none ∧ v.capacity_ = 0 ∧ v.size_ = 0) ∨
    ∃ a cs, v.items_.raw_ptr_ = some a ∧ h.block (some a) = some cs ∧ cs.length = v.capacity_
      ∧ v.size_ ≤ v.capacity_ := by
  obtain ⟨ha, hs⟩ := hw
  unfold allocated at ha
  cases hp : v.items_.raw_ptr_ with
  | none =>
    left
    simp only [hp, Option.some.injEq] at ha
    exact ⟨rfl, by omega, by omega⟩
  | some a =>
    right
    simp only [hp, Heap.slots] at ha
    cases hb : h.block (some a) with
    | none => simp [hb] at ha
    | some cs =>
      simp only [hb, Option.map_some', Option.some.injEq] at ha
      exact ⟨a, cs, rfl, hb, ha, hs⟩

theorem SimpleVector.WF.live {h : Heap T} {v : SimpleVector} (hw : WF h v) : Live h v := by
  unfold Live
  rw [hw.1]
  exact hw.2

theorem SimpleVector.toList_length {h : Heap T} {v : SimpleVector} (hl : Live h v) :
    (toList h v).length = v.size_ := by
  rcases SimpleVector.Live_cases hl with ⟨_, h0⟩ | ⟨a, cs, hp, hb, hs⟩
  · simp [toList, h0]
  · simp [toList, cells, hp, hb, hs]

theorem SimpleVector.ReCapacity_spec [Inhabited T] (h : Heap T) (v : SimpleVector) (n : Nat)
    (hl : Live h v) (hn : v.size_ ≤ n) (hpos : 0 < n) :
    ∃ h', ReCapacity h v n = .ok (h', ⟨⟨some h.length⟩, v.size_, n⟩)
      ∧ h'.block (some h.length) = some (toList h v ++ List.replicate (n - v.size_) default)
      ∧ h'.length = h.length + 1
      ∧ ∀ b, b < h.length → v.items_.raw_ptr_ ≠ some b → h'.block (some b) = h.block (some b) := by
  have hn0 : n ≠ 0 := by omega
  rcases SimpleVector.Live_cases hl with ⟨hp, h0⟩ | ⟨a, cs, hp, hb, hs⟩
  · refine ⟨h ++ [some (List.replicate n default)], ?_, ?_, by simp, ?_⟩
    · simp [ReCapacity, ArrayPtr.ctor_size, hn0, Heap.new_array, std_move, ArrayPtr.Get, Ptr.add,
        Ptr.diff, h0, copy_n, ArrayPtr.swap, ArrayPtr.dtor, hp, Heap.delete_array, bind,
        Except.bind, pure, Except.pure]
    · simp [Heap.block_append_new, toList, h0]
    · intro b hb _
      exact Heap.block_append_lt h _ b hb
  · have ha := Heap.block_some_lt hb
    have hne : a ≠ h.length := by omega
    have hb1 : Heap.block (h ++ [some (List.replicate n (default : T))]) (some a) = some cs := by
      rw [Heap.block_append_lt h _ a ha]; exact hb
    have hd1 : Heap.block (h ++ [some (List.replicate n (default : T))]) (some h.length)
        = some (List.replicate n default) := Heap.block_append_new h _
    have hcopy := copy_n_spec v.size_ _ a h.length 0 0 cs _ hb1 hd1 (by intro e; exact absurd e hne)
      (by omega) (by simp; omega)
    have hL : List.take 0 (List.replicate n (default : T)) ++ List.take v.size_ (List.drop 0 cs)
        ++ List.drop (0 + v.size_) (List.replicate n default)
        = toList h v ++ List.replicate (n - v.size_) default := by
      simp [toList, cells, hp, hb]
    rw [hL] at hcopy
    have hlen : h.length < (h ++ [some (List.replicate n (default : T))]).length := by simp
    have hb2 : Heap.block ((h ++ [some (List.replicate n (default : T))]).set h.length
        (some (toList h v ++ List.replicate (n - v.size_) default))) (some a) = some cs := by
      rw [Heap.block_set_ne _ _ _ _ (Ne.symm hne)]; exact hb1
    refine ⟨((h ++ [some (List.replicate n default)]).set h.length
        (some (toList h v ++ List.replicate (n - v.size_) default))).set a none, ?_, ?_, by simp, ?_⟩
    · simp only [ReCapacity, ArrayPtr.ctor_size, hn0, if_false, Heap.new_array, std_move,
        ArrayPtr.Get, Ptr.add, Ptr.diff, hp, Nat.zero_add, Nat.sub_zero, hcopy, ArrayPtr.swap,
        ArrayPtr.dtor, Heap.delete_array, hb2, bind, Except.bind, pure, Except.pure]
    · rw [Heap.block_set_ne _ _ _ _ hne, Heap.block_set_same _ _ _ hlen]
    · intro b hbl hbne
      have hba : a ≠ b := by
        intro e
        apply hbne
        rw [hp, e]
      have hbh : h.length ≠ b := by omega
      rw [Heap.block_set_ne _ _ _ _ hba, Heap.block_set_ne _ _ _ _ hbh, Heap.block_append_lt h _ b hbl]

theorem take_set_succ (l : List T) (n : Nat) (x : T) (hn : n < l.length) :
    (l.set n x).take (n + 1) = l.take n ++ [x] := by
  apply List.ext_getElem?
  intro i
  simp only [List.getElem?_append, List.getElem?_take, List.getElem?_set, List.length_take,
    List.getElem?_cons, List.getElem?_nil]
  split_ifs <;> first | rfl | (exfalso; omega)

theorem SimpleVector.cells_of_block {h : Heap T} {v : SimpleVector} {a : Nat} {cs : List T}
    (hp : v.items_.raw_ptr_ = some a) (hb : h.block (some a) = some cs) : cells h v = cs := by
  simp [cells, hp, hb]

theorem SimpleVector.allocated_of_block {h : Heap T} {v : SimpleVector} {a : Nat} {cs : List T}
    (hp : v.items_.raw_ptr_ = some a) (hb : h.block (some a) = some cs) :
    allocated h v = some cs.length := by
  simp [allocated, hp, Heap.slots, hb]

theorem SimpleVector.toList_of_block {h : Heap T} {v : SimpleVector} {a : Nat} {cs : List T}
    (hp : v.items_.raw_ptr_ = some a) (hb : h.block (some a) = some cs) :
    toList h v = cs.take v.size_ := by
  simp [toList, cells, hp, hb]

theorem SimpleVector.index_ok_iff (h : Heap T) (v : SimpleVector) (i : Nat) (x : T) :
    index h v i = .ok x ↔ (toList h v)[i]? = some x := by
  unfold index toList cells ArrayPtr.index Heap.load ArrayPtr.Get Ptr.add cassert
  simp only [List.getElem?_take, Nat.zero_add]
  by_cases hi : i < v.size_
  · simp only [hi, decide_True, if_true, bind, Except.bind]
    cases hb : h.block v.items_.raw_ptr_ with
    | none => simp
    | some cs =>
      simp only [Option.getD_some]
      cases hx : cs[i]? with
      | none => simp
      | some y => simp
  · simp [hi, bind, Except.bind]

theorem Heap.load_ok_block {h : Heap T} {p : Ptr} {x : T} (hx : h.load p = .ok x) :
    ∃ b cs, p.base = some b ∧ h.block (some b) = some cs := by
  unfold Heap.load at hx
  cases hp : p.base with
  | none => simp [hp, Heap.block] at hx
  | some b =>
    cases hb : h.block (some b) with
    | none => simp [hp, hb] at hx
    | some cs => exact ⟨b, cs, rfl, hb⟩

theorem Heap.load_congr {h h1 : Heap T} {p : Ptr} (hb : h1.block p.base = h.block p.base) :
    h1.load p = h.load p := by
  unfold Heap.load
  rw [hb]

theorem Ref.read_frame {h h1 : Heap T} {item : Ref T} {x : T} {q : Option Nat}
    (hx : item.read h = .ok x) (hna : ∀ p, item = .cell p → p.base ≠ q)
    (hframe : ∀ b, b < h.length → q ≠ some b → h1.block (some b) = h.block (some b)) :
    item.read h1 = .ok x := by
  cases item with
  | object y => exact hx
  | cell p =>
    obtain ⟨b, cs, hpb, hcs⟩ := Heap.load_ok_block (p := p) hx
    have hne : q ≠ some b := by
      intro e
      exact hna p rfl (by rw [hpb, e])
    show h1.load p = .ok x
    rw [Heap.load_congr (h := h) (by rw [hpb]; exact hframe b (Heap.block_some_lt hcs) hne)]
    exact hx

theorem Ref.read_set {h : Heap T} {item : Ref T} {x : T} {a : Nat} (blk : Option (List T))
    (hx : item.read h = .ok x) (hna : ∀ p, item = .cell p → p.base ≠ some a) :
    item.read (h.set a blk) = .ok x := by
  cases item with
  | object y => exact hx
  | cell p =>
    obtain ⟨b, cs, hpb, hcs⟩ := Heap.load_ok_block (p := p) hx
    have hne : a ≠ b := by
      intro e
      exact hna p rfl (by rw [hpb, e])
    show Heap.load (h.set a blk) p = .ok x
    rw [Heap.load_congr (h := h) (by rw [hpb]; exact Heap.block_set_ne _ _ _ _ hne)]
    exact hx

theorem SimpleVector.PushBack_ref_spec [Inhabited T] (h : Heap T) (v : SimpleVector)
    (item : Ref T) (x : T) (hw : WF h v) (hx : item.read h = .ok x)
    (hna : v.size_ = v.capacity_ → ∀ p, item = .cell p → p.base ≠ v.items_.raw_ptr_) :
    ∃ h' v', PushBack h v item = .ok (h', v') ∧ WF h' v' ∧ v'.size_ = v.size_ + 1
      ∧ v'.capacity_ = (if v.size_ = v.capacity_ then max (v.size_ * 2) 1 else v.capacity_)
      ∧ toList h' v' = toList h v ++ [x] := by
  by_cases hc : v.size_ = v.capacity_
  · obtain ⟨h1, hre, hblk, hlen, hframe⟩ := SimpleVector.ReCapacity_spec h v (max (v.size_ * 2) 1)
      hw.live (by omega) (by omega)
    have hx1 : item.read h1 = .ok x := Ref.read_frame hx (hna hc) hframe
    have hlt : v.size_ < (toList h v ++ List.replicate (max (v.size_ * 2) 1 - v.size_)
        (default : T)).length := by
      simp [SimpleVector.toList_length hw.live]; omega
    have hh1 : h.length < h1.length := by omega
    refine ⟨h1.set h.length (some ((toList h v ++ List.replicate (max (v.size_ * 2) 1 - v.size_)
        default).set v.size_ x)), ⟨⟨some h.length⟩, v.size_ + 1, max (v.size_ * 2) 1⟩,
        ?_, ?_, rfl, ?_, ?_⟩
    · simp only [PushBack, hc, if_true, bind, Except.bind]
      rw [← hc, hre]
      simp only [hx1, end_, ArrayPtr.Get, Ptr.add, Nat.zero_add, Heap.store_eq hblk _ hlt]
      rfl
    · constructor
      · rw [SimpleVector.allocated_of_block rfl (Heap.block_set_same _ _ _ hh1)]
        simp [SimpleVector.toList_length hw.live]
        omega
      · show v.size_ + 1 ≤ max (v.size_ * 2) 1
        omega
    · simp [hc]
    · rw [SimpleVector.toList_of_block (v := ⟨⟨some h.length⟩, v.size_ + 1, max (v.size_ * 2) 1⟩)
        rfl (Heap.block_set_same _ _ _ hh1)]
      show List.take (v.size_ + 1) _ = _
      rw [take_set_succ _ _ _ hlt]
      have hl := SimpleVector.toList_length hw.live
      rw [List.take_append_of_le_length (by omega), List.take_of_length_le (by omega)]
  · rcases SimpleVector.WF_cases hw with ⟨_, h1, h2⟩ | ⟨a, cs, hp, hb, hlen, hs⟩
    · omega
    · have hlt : v.size_ < cs.length := by omega
      have ha := Heap.block_some_lt hb
      refine ⟨h.set a (some (cs.set v.size_ x)), { v with size_ := v.size_ + 1 }, ?_, ?_, rfl,
        ?_, ?_⟩
      · simp only [PushBack, hc, if_false, bind, Except.bind, pure, Except.pure, hx, end_,
          ArrayPtr.Get, Ptr.add, Nat.zero_add, hp, Heap.store_eq hb _ hlt]
      · constructor
        · rw [SimpleVector.allocated_of_block (v := { v with size_ := v.size_ + 1 }) hp
            (Heap.block_set_same _ _ _ ha)]
          simp [hlen]
        · show v.size_ + 1 ≤ v.capacity_
          omega
      · simp [hc]
      · rw [SimpleVector.toList_of_block (v := { v with size_ := v.size_ + 1 }) hp
          (Heap.block_set_same _ _ _ ha), SimpleVector.toList_of_block hp hb]
        exact take_set_succ _ _ _ hlt

theorem SimpleVector.PushBack_spec [Inhabited T] (h : Heap T) (v : SimpleVector) (item : T)
    (hw : WF h v) :
    ∃ h' v', PushBack h v (.object item) = .ok (h', v') ∧ WF h' v' ∧ v'.size_ = v.size_ + 1
      ∧ v'.capacity_ = (if v.size_ = v.capacity_ then max (v.size_ * 2) 1 else v.capacity_)
      ∧ toList h' v' = toList h v ++ [item] :=
  SimpleVector.PushBack_ref_spec h v (.object item) item hw rfl (fun _ p e => by cases e)

/-! ## `Insert` and `Erase` -/

theorem insert_list (L : List T) (size k : Nat) (x : T) (hk : k ≤ size) (hs : size < L.length) :
    ((L.take (k + 1) ++ (L.drop k).take (size - k) ++ L.drop (k + 1 + (size - k))).set k x).take
      (size + 1) = (L.take size).take k ++ x :: (L.take size).drop k := by
  apply List.ext_getElem?
  intro i
  simp only [List.getElem?_append, List.getElem?_take, List.getElem?_drop, List.getElem?_set,
    List.length_append, List.length_take, List.length_drop, List.length_set, List.getElem?_cons]
  split_ifs <;> first | rfl | (exfalso; omega) | (congr 1; omega)

theorem shift_getElem (L : List T) (size k o : Nat) (hk : k ≤ size) (hs : size < L.length)
    (ho : o ≤ k ∨ size < o) :
    (L.take (k + 1) ++ (L.drop k).take (size - k) ++ L.drop (size + 1))[o]? = L[o]? := by
  simp only [List.getElem?_append, List.getElem?_take, List.getElem?_drop,
    List.length_append, List.length_take, List.length_drop]
  split_ifs <;> first | rfl | (exfalso; omega) | (congr 1; omega)

theorem erase_list (cs : List T) (size k : Nat) (hk : k < size) (hs : size ≤ cs.length) :
    (cs.take k ++ (cs.drop (k + 1)).take (size - (k + 1)) ++ cs.drop (k + (size - (k + 1)))).take
      (size - 1) = (cs.take size).eraseIdx k := by
  apply List.ext_getElem?
  intro i
  simp only [List.getElem?_append, List.getElem?_take, List.getElem?_drop, List.getElem?_eraseIdx,
    List.length_append, List.length_take, List.length_drop]
  split_ifs <;> first | rfl | (exfalso; omega) | (congr 1; omega)

theorem SimpleVector.grow_spec [Inhabited T] (h : Heap T) (v : SimpleVector) (hw : WF h v) :
    ∃ h1 a1 L,
      (if v.size_ = v.capacity_ then ReCapacity h v (max (v.size_ * 2) 1)
        else (pure (h, v) : Except Fault (Heap T × SimpleVector)))
        = .ok (h1, ⟨⟨some a1⟩, v.size_,
            if v.size_ = v.capacity_ then max (v.size_ * 2) 1 else v.capacity_⟩)
      ∧ h1.block (some a1) = some L
      ∧ L.length = (if v.size_ = v.capacity_ then max (v.size_ * 2) 1 else v.capacity_)
      ∧ v.size_ < L.length
      ∧ L.take v.size_ = toList h v
      ∧ (∀ (item : Ref T) (x : T), item.read h = .ok x →
          (∀ p, item = .cell p → p.base ≠ v.items_.raw_ptr_) →
          item.read h1 = .ok x ∧ ∀ p, item = .cell p → p.base ≠ some a1)
      ∧ (v.size_ ≠ v.capacity_ → h1 = h ∧ v.items_.raw_ptr_ = some a1) := by
  have hl := SimpleVector.toList_length hw.live
  by_cases hc : v.size_ = v.capacity_
  · obtain ⟨h1, hre, hblk, _, hframe⟩ := SimpleVector.ReCapacity_spec h v (max (v.size_ * 2) 1)
      hw.live (by omega) (by omega)
    refine ⟨h1, h.length, _, ?_, hblk, ?_, ?_, ?_, ?_, fun hne => absurd hc hne⟩
    · simp only [hc, if_true]
      rw [← hc]
      exact hre
    · simp [hc, hl]; omega
    · simp [hl]; omega
    · rw [List.take_append_of_le_length (by omega), List.take_of_length_le (by omega)]
    · intro item x hx hna
      refine ⟨Ref.read_frame hx hna hframe, ?_⟩
      intro p e hpb
      subst e
      obtain ⟨b, cs, hb1, hb2⟩ := Heap.load_ok_block (p := p) hx
      have hlt := Heap.block_some_lt hb2
      rw [hpb] at hb1
      have : h.length = b := Option.some.inj hb1
      omega
  · rcases SimpleVector.WF_cases hw with ⟨_, h1, h2⟩ | ⟨a, cs, hp, hb, hlen, hs⟩
    · omega
    · refine ⟨h, a, cs, ?_, hb, ?_, by omega, ?_, ?_, fun _ => ⟨rfl, hp⟩⟩
      · simp only [hc, if_false, pure, Except.pure]
        rw [← hp]
      · simp [hc, hlen]
      · rw [SimpleVector.toList_of_block hp hb]
      · intro item x hx hna
        refine ⟨hx, ?_⟩
        intro p e
        rw [← hp]
        exact hna p e

theorem SimpleVector.grow_bind [Inhabited T] (h : Heap T) (v : SimpleVector) (hw : WF h v) :
    ∃ h1 a1 L,
      (∀ (β : Type) (f : Heap T × SimpleVector → Except Fault β),
        (if v.size_ = v.capacity_ then ReCapacity h v (max (v.size_ * 2) 1) >>= f
          else pure (h, v) >>= f)
        = f (h1, ⟨⟨some a1⟩, v.size_,
            if v.size_ = v.capacity_ then max (v.size_ * 2) 1 else v.capacity_⟩))
      ∧ (∀ (β : Type) (f : Heap T × SimpleVector → Except Fault β),
        (if v.capacity_ = v.size_ then ReCapacity h v (max (v.size_ * 2) 1) >>= f
          else pure (h, v) >>= f)
        = f (h1, ⟨⟨some a1⟩, v.size_,
            if v.size_ = v.capacity_ then max (v.size_ * 2) 1 else v.capacity_⟩))
      ∧ h1.block (some a1) = some L
      ∧ L.length = (if v.size_ = v.capacity_ then max (v.size_ * 2) 1 else v.capacity_)
      ∧ v.size_ < L.length
      ∧ L.take v.size_ = toList h v
      ∧ (∀ (item : Ref T) (x : T), item.read h = .ok x →
          (∀ p, item = .cell p → p.base ≠ v.items_.raw_ptr_) →
          item.read h1 = .ok x ∧ ∀ p, item = .cell p → p.base ≠ some a1)
      ∧ (v.size_ ≠ v.capacity_ → h1 = h ∧ v.items_.raw_ptr_ = some a1) := by
  obtain ⟨h1, a1, L, hgrow, hrest⟩ := SimpleVector.grow_spec h v hw
  refine ⟨h1, a1, L, ?_, ?_, hrest⟩
  · intro β f
    by_cases hc : v.size_ = v.capacity_
    · simp only [hc, if_true] at hgrow ⊢
      rw [hgrow]
      rfl
    · simp only [hc, if_false] at hgrow ⊢
      rw [hgrow]
      rfl
  · intro β f
    by_cases hc : v.size_ = v.capacity_
    · simp only [hc, if_true] at hgrow ⊢
      rw [hgrow]
      rfl
    · simp only [hc, Ne.symm hc, if_false] at hgrow ⊢
      rw [hgrow]
      rfl

theorem SimpleVector.Insert_ref_spec [Inhabited T] (h : Heap T) (v : SimpleVector) (k : Nat)
    (item : Ref T) (x : T) (hw : WF h v) (hk : k ≤ v.size_) (hx : item.read h = .ok x)
    (hna : ∀ p, item = .cell p → p.base = v.items_.raw_ptr_ →
      v.size_ < v.capacity_ ∧ (p.off ≤ k ∨ v.size_ < p.off)) :
    ∃ h' v', Insert h v (v.begin.add k) item = .ok (h', v', v'.begin.add k) ∧ WF h' v'
      ∧ v'.size_ = v.size_ + 1
      ∧ v'.capacity_ = (if v.size_ = v.capacity_ then max (v.size_ * 2) 1 else v.capacity_)
      ∧ toList h' v' = (toList h v).take k ++ x :: (toList h v).drop k
      ∧ h'.load (v'.begin.add k) = .ok x := by
  obtain ⟨h1, a1, L, _, hgrow, hblk, hlen, hlt, htake, hfr, hsame⟩ :=
    SimpleVector.grow_bind h v hw
  have ha1 := Heap.block_some_lt hblk
  have hcb := copy_backward_n_spec (v.size_ - k) h1 a1 a1 k (k + 1) L L hblk hblk
    (by intro _; omega) (by omega) (by omega)
  have e1 : k + (v.size_ - k) = v.size_ := by omega
  have e2 : k + 1 + (v.size_ - k) = v.size_ + 1 := by omega
  rw [e1] at hcb
  simp only [e2] at hcb
  have hblk2 := Heap.block_set_same h1 a1 (some (L.take (k + 1) ++ (L.drop k).take (v.size_ - k)
    ++ L.drop (v.size_ + 1))) ha1
  have hklt : k < (L.take (k + 1) ++ (L.drop k).take (v.size_ - k)
      ++ L.drop (v.size_ + 1)).length := by
    simp; omega
  have ha2 : a1 < (h1.set a1 (some (L.take (k + 1) ++ (L.drop k).take (v.size_ - k)
      ++ L.drop (v.size_ + 1)))).length := by simpa using ha1
  have hx2 : item.read (h1.set a1 (some (L.take (k + 1) ++ (L.drop k).take (v.size_ - k)
      ++ L.drop (v.size_ + 1)))) = .ok x := by
    cases item with
    | object y => exact hx
    | cell p =>
      by_cases hpb : p.base = v.items_.raw_ptr_
      · obtain ⟨hcap, hoff⟩ := hna p rfl hpb
        obtain ⟨e, hp⟩ := hsame (by omega)
        subst e
        obtain ⟨b, o⟩ := p
        have hb : b = some a1 := by rw [← hp]; exact hpb
        subst hb
        have hxo : L[o]? = some x := by
          have := hx
          simp only [Ref.read, Heap.load, hblk] at this
          cases hLo : L[o]? with
          | none => simp [hLo] at this
          | some y =>
            simp only [hLo, Except.ok.injEq] at this
            rw [this]
        show Heap.load _ ⟨some a1, o⟩ = .ok x
        simp only [Heap.load, hblk2]
        rw [shift_getElem L v.size_ k o hk hlt hoff, hxo]
      · obtain ⟨hx1, hna1⟩ := hfr (.cell p) x hx (fun q e => by cases e; exact hpb)
        exact Ref.read_set _ hx1 hna1
  refine ⟨(h1.set a1 (some (L.take (k + 1) ++ (L.drop k).take (v.size_ - k)
      ++ L.drop (v.size_ + 1)))).set a1 (some ((L.take (k + 1) ++ (L.drop k).take (v.size_ - k)
      ++ L.drop (v.size_ + 1)).set k x)),
    ⟨⟨some a1⟩, v.size_ + 1, if v.size_ = v.capacity_ then max (v.size_ * 2) 1 else v.capacity_⟩,
    ?_, ?_, rfl, rfl, ?_, ?_⟩
  · unfold Insert
    simp only [hgrow]
    simp only [cassert, begin, end_, ArrayPtr.Get, Ptr.add, Ptr.le, Ptr.diff, Nat.zero_add,
      Nat.sub_zero, decide_True, Bool.true_and, Nat.zero_le, hk, Bool.and_self, if_true, bind,
      Except.bind, std_copy_backward, hcb, hx2, Heap.store_eq hblk2 k hklt, pure, Except.pure]
  · constructor
    · rw [SimpleVector.allocated_of_block rfl (Heap.block_set_same _ _ _ ha2)]
      simp only [List.length_set, List.length_append, List.length_take, List.length_drop]
      congr 1
      show _ = (if v.size_ = v.capacity_ then max (v.size_ * 2) 1 else v.capacity_)
      omega
    · show v.size_ + 1 ≤ (if v.size_ = v.capacity_ then max (v.size_ * 2) 1 else v.capacity_)
      omega
  · rw [SimpleVector.toList_of_block rfl (Heap.block_set_same _ _ _ ha2), ← htake]
    have := insert_list L v.size_ k x hk hlt
    rw [e2] at this
    exact this
  · simp only [begin, ArrayPtr.Get, Ptr.add, Nat.zero_add]
    rw [Heap.load_eq (Heap.block_set_same _ _ _ ha2) k (by simpa using hklt)]
    simp

theorem SimpleVector.Insert_spec [Inhabited T] (h : Heap T) (v : SimpleVector) (k : Nat) (x : T)
    (hw : WF h v) (hk : k ≤ v.size_) :
    ∃ h' v', Insert h v (v.begin.add k) (.object x) = .ok (h', v', v'.begin.add k) ∧ WF h' v'
      ∧ v'.size_ = v.size_ + 1
      ∧ v'.capacity_ = (if v.size_ = v.capacity_ then max (v.size_ * 2) 1 else v.capacity_)
      ∧ toList h' v' = (toList h v).take k ++ x :: (toList h v).drop k
      ∧ h'.load (v'.begin.add k) = .ok x :=
  SimpleVector.Insert_ref_spec h v k (.object x) x hw hk rfl (fun p e => by cases e)

theorem SimpleVector.Insert_move_eq [Inhabited T] (h : Heap T) (v : SimpleVector) (pos : Ptr)
    (x : Ref T) : Insert_move h v pos x = Insert h v pos x := rfl

theorem SimpleVector.Erase_spec (h : Heap T) (v : SimpleVector) (k : Nat)
    (hl : Live h v) (hk : k < v.size_) :
    ∃ h', Erase h v (v.begin.add k) = .ok (h', { v with size_ := v.size_ - 1 }, v.begin.add k)
      ∧ toList h' { v with size_ := v.size_ - 1 } = (toList h v).eraseIdx k
      ∧ allocated h' { v with size_ := v.size_ - 1 } = allocated h v := by
  rcases SimpleVector.Live_cases hl with ⟨_, h0⟩ | ⟨a, cs, hp, hb, hs⟩
  · omega
  · have ha := Heap.block_some_lt hb
    have hcp := copy_n_spec (v.size_ - (k + 1)) h a a (k + 1) k cs cs hb hb (by intro _; omega)
      (by omega) (by omega)
    refine ⟨h.set a (some (cs.take k ++ (cs.drop (k + 1)).take (v.size_ - (k + 1))
      ++ cs.drop (k + (v.size_ - (k + 1))))), ?_, ?_, ?_⟩
    · simp only [Erase, cassert, begin, end_, ArrayPtr.Get, Ptr.add, Ptr.le, Ptr.lt, Ptr.diff,
        Nat.zero_add, Nat.sub_zero, decide_True, Bool.true_and, Nat.zero_le, hk, Bool.and_self,
        if_true, bind, Except.bind, std_move, hp, hcp, pure, Except.pure]
    · rw [SimpleVector.toList_of_block (v := { v with size_ := v.size_ - 1 }) hp
        (Heap.block_set_same _ _ _ ha), SimpleVector.toList_of_block hp hb]
      exact erase_list cs v.size_ k hk hs
    · rw [SimpleVector.allocated_of_block (v := { v with size_ := v.size_ - 1 }) hp
        (Heap.block_set_same _ _ _ ha), SimpleVector.allocated_of_block hp hb]
      simp
      omega

/-! ## `At`, `Reserve`, the constructors and `operator==` -/

theorem SimpleVector.At_eq_index (h : Heap T) (v : SimpleVector) (i : Nat) (hi : i < v.size_) :
    At h v i = index h v i := by
  simp [At, index, cassert, hi, Nat.not_le.mpr hi, bind, Except.bind]

theorem SimpleVector.At_out_of_range_iff (h : Heap T) (v : SimpleVector) (i : Nat) :
    At h v i = .error .out_of_range ↔ v.size_ ≤ i := by
  unfold At
  by_cases hi : i ≥ v.size_
  · simp [hi]
  · simp only [hi, if_false, ArrayPtr.index, Heap.load]
    constructor
    · intro he
      exfalso
      revert he
      cases h.block (v.items_.Get.add i).base with
      | none => simp
      | some cs =>
        cases hx : cs[(v.items_.Get.add i).off]? with
        | none => simp [hx]
        | some y => simp [hx]
    · intro hle
      exact hle.elim

theorem SimpleVector.index_of_live {h : Heap T} {v : SimpleVector} (hl : Live h v) (i : Nat)
    (hi : i < v.size_) : ∃ x, index h v i = .ok x ∧ (toList h v)[i]? = some x := by
  have hlen := SimpleVector.toList_length hl
  have hi2 : i < (toList h v).length := by omega
  refine ⟨(toList h v).get ⟨i, hi2⟩, ?_, ?_⟩
  · rw [SimpleVector.index_ok_iff]
    simp [List.getElem?_eq_getElem hi2]
  · simp [List.getElem?_eq_getElem hi2]

theorem SimpleVector.Reserve_spec [Inhabited T] (h : Heap T) (v : SimpleVector) (n : Nat)
    (hl : Live h v) (hs : v.size_ ≤ v.capacity_) (hn : v.capacity_ < n) :
    ∃ h', Reserve h v n = .ok (h', ⟨⟨some h.length⟩, v.size_, n⟩)
      ∧ toList h' ⟨⟨some h.length⟩, v.size_, n⟩ = toList h v
      ∧ WF h' ⟨⟨some h.length⟩, v.size_, n⟩ := by
  obtain ⟨h1, hre, hblk, _, _⟩ := SimpleVector.ReCapacity_spec h v n hl (by omega) (by omega)
  have hlen := SimpleVector.toList_length hl
  refine ⟨h1, ?_, ?_, ?_, ?_⟩
  · simp [Reserve, hn, hre]
  · rw [SimpleVector.toList_of_block (v := ⟨⟨some h.length⟩, v.size_, n⟩) rfl hblk]
    show List.take v.size_ _ = _
    rw [List.take_append_of_le_length (by omega), List.take_of_length_le (by omega)]
  · rw [SimpleVector.allocated_of_block (v := ⟨⟨some h.length⟩, v.size_, n⟩) rfl hblk]
    simp [hlen]
    omega
  · show v.size_ ≤ n
    omega

theorem SimpleVector.ctor_fill_spec [Inhabited T] (h : Heap T) (n : Nat) (x : T) :
    ctor_fill h n x = .ok (if n = 0 then (h, ⟨⟨none⟩, 0, 0⟩)
      else (h ++ [some (List.replicate n x)], ⟨⟨some h.length⟩, n, n⟩)) := by
  by_cases hn : n = 0
  · subst hn
    simp [ctor_fill, ArrayPtr.ctor_size, std_fill, Ptr.diff, ArrayPtr.Get, Ptr.add, fill_n, bind,
      Except.bind, pure, Except.pure]
  · have hd : Heap.block (h ++ [some (List.replicate n (default : T))]) (some h.length)
        = some (List.replicate n default) := Heap.block_append_new h _
    have hf := fill_n_spec n _ h.length 0 _ x hd (by simp)
    simp only [ctor_fill, ArrayPtr.ctor_size, hn, if_false, Heap.new_array, std_fill, Ptr.diff,
      ArrayPtr.Get, Ptr.add, Nat.zero_add, Nat.sub_zero, hf, bind, Except.bind, pure, Except.pure]
    simp

theorem SimpleVector.ctor_list_spec [Inhabited T] (h : Heap T) (init : List T) :
    ctor_list h init = .ok (if init.length = 0 then (h, ⟨⟨none⟩, 0, 0⟩)
      else (h ++ [some init], ⟨⟨some h.length⟩, init.length, init.length⟩)) := by
  by_cases hn : init.length = 0
  · have : init = [] := List.length_eq_zero.mp hn
    subst this
    simp [ctor_list, ArrayPtr.ctor_size, copy_list, bind, Except.bind, pure, Except.pure]
  · have hd : Heap.block (h ++ [some (List.replicate init.length (default : T))]) (some h.length)
        = some (List.replicate init.length default) := Heap.block_append_new h _
    have hf := copy_list_spec init _ h.length 0 _ hd (by simp)
    simp only [ctor_list, ArrayPtr.ctor_size, hn, if_false, Heap.new_array, ArrayPtr.Get, hf, bind,
      Except.bind, pure, Except.pure]
    simp

theorem SimpleVector.ctor_copy_spec [Inhabited T] (h : Heap T) (other : SimpleVector)
    (hl : Live h other) :
    ctor_copy h other = .ok (if other.size_ = 0 then (h, ⟨⟨none⟩, 0, other.capacity_⟩)
      else (h ++ [some (toList h other)], ⟨⟨some h.length⟩, other.size_, other.capacity_⟩)) := by
  by_cases hn : other.size_ = 0
  · simp [ctor_copy, ctor_size, SimpleVector.ctor_fill_spec, GetSize, hn, cassert, std_copy,
      Ptr.diff, ArrayPtr.Get, Ptr.add, copy_n, swap, ArrayPtr.swap, dtor, ArrayPtr.dtor,
      Heap.delete_array, bind, Except.bind, pure, Except.pure]
  · rcases SimpleVector.Live_cases hl with ⟨_, h0⟩ | ⟨a, cs, hp, hb, hs⟩
    · omega
    · have ha := Heap.block_some_lt hb
      have hne : a ≠ h.length := by omega
      have hb1 : Heap.block (h ++ [some (List.replicate other.size_ (default : T))]) (some a)
          = some cs := by
        rw [Heap.block_append_lt h _ a ha]; exact hb
      have hd1 : Heap.block (h ++ [some (List.replicate other.size_ (default : T))])
          (some h.length) = some (List.replicate other.size_ default) := Heap.block_append_new h _
      have hcopy := copy_n_spec other.size_ _ a h.length 0 0 cs _ hb1 hd1
        (by intro e; exact absurd e hne) (by omega) (by simp)
      simp only [ctor_copy, ctor_size, SimpleVector.ctor_fill_spec, GetSize, hn, if_false, cassert,
        std_copy, Ptr.diff, ArrayPtr.Get, Ptr.add, Nat.zero_add, Nat.sub_zero, hp, hcopy, swap,
        ArrayPtr.swap, dtor, ArrayPtr.dtor, Heap.delete_array, bind, Except.bind, pure,
        Except.pure, decide_True, if_true]
      simp [SimpleVector.toList_of_block hp hb]

theorem equal_n_spec [DecidableEq T] (n : Nat) : ∀ (h : Heap T) (a b o1 o2 : Nat) (cs ds : List T),
    h.block (some a) = some cs → h.block (some b) = some ds →
    o1 + n ≤ cs.length → o2 + n ≤ ds.length →
    equal_n h ⟨some a, o1⟩ ⟨some b, o2⟩ n
      = .ok (decide ((cs.drop o1).take n = (ds.drop o2).take n)) := by
  induction n with
  | zero =>
    intro h a b o1 o2 cs ds _ _ _ _
    simp [equal_n]
  | succ n ih =>
    intro h a b o1 o2 cs ds ha hb h1 h2
    have h1l : o1 < cs.length := by omega
    have h2l : o2 < ds.length := by omega
    simp only [equal_n, Heap.load_eq ha o1 h1l, Heap.load_eq hb o2 h2l, bind, Except.bind, Ptr.add]
    rw [List.drop_eq_getElem_cons h1l, List.drop_eq_getElem_cons h2l, List.take_succ_cons,
      List.take_succ_cons]
    by_cases hxy : cs.get ⟨o1, h1l⟩ = ds.get ⟨o2, h2l⟩
    · rw [if_pos hxy, ih h a b (o1 + 1) (o2 + 1) cs ds ha hb (by omega) (by omega)]
      simp only [List.get_eq_getElem] at hxy
      simp [hxy]
    · rw [if_neg hxy]
      simp only [List.get_eq_getElem] at hxy
      simp [hxy, pure, Except.pure]

theorem SimpleVector.eq_spec [DecidableEq T] (h : Heap T) (a b : SimpleVector)
    (ha : Live h a) (hb : Live h b) (hab : a.size_ ≤ b.size_) :
    eq h a b = .ok (decide (toList h a = (toList h b).take a.size_)) := by
  by_cases h0 : a.size_ = 0
  · simp [eq, std_equal, begin, end_, ArrayPtr.Get, Ptr.add, Ptr.diff, h0, equal_n, toList]
  · rcases SimpleVector.Live_cases ha with ⟨_, h1⟩ | ⟨pa, cs, hpa, hba, hsa⟩
    · omega
    · rcases SimpleVector.Live_cases hb with ⟨_, h1⟩ | ⟨pb, ds, hpb, hbb, hsb⟩
      · omega
      · have := equal_n_spec a.size_ h pa pb 0 0 cs ds hba hbb (by omega) (by omega)
        simp only [eq, std_equal, begin, end_, ArrayPtr.Get, Ptr.add, Ptr.diff, Nat.zero_add,
          Nat.sub_zero, hpa, hpb, this, List.drop_zero]
        rw [SimpleVector.toList_of_block hpa hba, SimpleVector.toList_of_block hpb hbb,
          List.take_take, Nat.min_eq_left hab]

/-! ## What the operations do to `size_` and `capacity_`; `Resize` and copy assignment -/

theorem SimpleVector.ReCapacity_fields [Inhabited T] {h h' : Heap T} {v v' : SimpleVector} {n : Nat}
    (he : ReCapacity h v n = .ok (h', v')) : v'.size_ = v.size_ ∧ v'.capacity_ = n := by
  unfold ReCapacity at he
  simp only [bind, Except.bind, pure, Except.pure] at he
  split at he
  · cases he
  · split at he
    · cases he
    · cases he
      exact ⟨rfl, rfl⟩

theorem SimpleVector.PushBack_fields [Inhabited T] {h h' : Heap T} {v v' : SimpleVector}
    {x : Ref T} (he : PushBack h v x = .ok (h', v')) :
    v'.size_ = v.size_ + 1
      ∧ v'.capacity_ = (if v.size_ = v.capacity_ then max (v.size_ * 2) 1 else v.capacity_) := by
  unfold PushBack at he
  by_cases hc : v.size_ = v.capacity_
  · simp only [hc, if_true, bind, Except.bind, pure, Except.pure] at he ⊢
    cases hre : ReCapacity h v (max (v.capacity_ * 2) 1) with
    | error e => rw [hre] at he; cases he
    | ok r =>
      obtain ⟨h1, v1⟩ := r
      have hf := SimpleVector.ReCapacity_fields hre
      rw [hre] at he
      simp only at he
      split at he
      · cases he
      · split at he
        · cases he
        · cases he
          simp [hf.1, hf.2, hc]
  · simp only [hc, if_false, bind, Except.bind, pure, Except.pure] at he ⊢
    split at he
    · cases he
    · split at he
      · cases he
      · cases he
        exact ⟨rfl, rfl⟩

theorem SimpleVector.Insert_fields [Inhabited T] {h h' : Heap T} {v v' : SimpleVector} {pos it : Ptr}
    {x : Ref T} (he : Insert h v pos x = .ok (h', v', it)) :
    v'.size_ = v.size_ + 1
      ∧ v'.capacity_ = (if v.size_ = v.capacity_ then max (v.size_ * 2) 1 else v.capacity_) := by
  unfold Insert at he
  simp only [bind, Except.bind, pure, Except.pure] at he
  split at he
  · cases he
  · by_cases hc : v.capacity_ = v.size_
    · simp only [hc, if_true] at he ⊢
      cases hre : ReCapacity h v (max (v.size_ * 2) 1) with
      | error e => rw [hre] at he; cases he
      | ok r =>
        obtain ⟨h1, v1⟩ := r
        have hf := SimpleVector.ReCapacity_fields hre
        rw [hre] at he
        simp only at he
        split at he
        · cases he
        · split at he
          · cases he
          · split at he
            · cases he
            · cases he
              simp [hf.1, hf.2]
    · simp only [hc, if_false] at he
      split at he
      · cases he
      · split at he
        · cases he
        · split at he
          · cases he
          · cases he
            simp [Ne.symm hc]

theorem SimpleVector.Erase_fields {h h' : Heap T} {v v' : SimpleVector} {pos it : Ptr}
    (he : Erase h v pos = .ok (h', v', it)) :
    v'.size_ = v.size_ - 1 ∧ v'.capacity_ = v.capacity_ ∧ 0 < v.size_ := by
  unfold Erase at he
  simp only [bind, Except.bind, pure, Except.pure, cassert] at he
  by_cases hc : (v.begin.le pos && pos.lt v.end_) = true
  · simp only [hc, if_true] at he
    have hpos : 0 < v.size_ := by
      simp only [Ptr.le, Ptr.lt, begin, end_, ArrayPtr.Get, Ptr.add, Bool.and_eq_true,
        decide_eq_true_eq] at hc
      omega
    split at he
    · cases he
    · cases he
      exact ⟨rfl, rfl, hpos⟩
  · simp only [hc] at he
    cases he

theorem SimpleVector.PopBack_fields {v v' : SimpleVector} (he : PopBack v = .ok v') :
    v'.size_ = v.size_ - 1 ∧ v'.capacity_ = v.capacity_ ∧ v'.items_ = v.items_ ∧ 0 < v.size_ := by
  unfold PopBack at he
  simp only [bind, Except.bind, pure, Except.pure, cassert, IsEmpty] at he
  by_cases hc : v.size_ = 0
  · simp [hc] at he
  · simp only [hc, decide_False, Bool.not_false, if_true] at he
    cases he
    exact ⟨rfl, rfl, rfl, by omega⟩

theorem SimpleVector.Resize_fields [Inhabited T] {h h' : Heap T} {v v' : SimpleVector} {n : Nat}
    (he : Resize h v n = .ok (h', v')) :
    v'.size_ = n
      ∧ v'.capacity_ = (if v.size_ < n then size_t_wrap (n * 2) else v.capacity_) := by
  unfold Resize at he
  by_cases hc : v.size_ < n
  · simp only [hc, if_true, bind, Except.bind, pure, Except.pure] at he ⊢
    cases hre : ReCapacity h v (size_t_wrap (n * 2)) with
    | error e => rw [hre] at he; cases he
    | ok r =>
      obtain ⟨h1, v1⟩ := r
      have hf := SimpleVector.ReCapacity_fields hre
      rw [hre] at he
      cases he
      exact ⟨rfl, hf.2⟩
  · simp only [hc, if_false, bind, Except.bind, pure, Except.pure] at he ⊢
    cases he
    exact ⟨rfl, rfl⟩

theorem SimpleVector.Reserve_fields [Inhabited T] {h h' : Heap T} {v v' : SimpleVector} {n : Nat}
    (he : Reserve h v n = .ok (h', v')) :
    v'.size_ = v.size_ ∧ v'.capacity_ = (if v.capacity_ < n then n else v.capacity_) := by
  unfold Reserve at he
  by_cases hc : n > v.capacity_
  · simp only [hc, if_true] at he
    have hf := SimpleVector.ReCapacity_fields he
    have hc2 : v.capacity_ < n := hc
    simp [hf.1, hf.2, hc2]
  · simp only [hc, if_false, pure, Except.pure] at he
    cases he
    have hc2 : ¬ v.capacity_ < n := hc
    simp [hc2]

theorem SimpleVector.ctor_copy_fields [Inhabited T] {h h' : Heap T} {o c : SimpleVector}
    (he : ctor_copy h o = .ok (h', c)) : c.size_ = o.size_ ∧ c.capacity_ = o.capacity_ := by
  unfold ctor_copy at he
  simp only [ctor_size, SimpleVector.ctor_fill_spec, bind, Except.bind, pure, Except.pure, cassert,
    decide_True, if_true, GetSize] at he
  split at he
  · cases he
  · split at he
    · cases he
    · cases he
      by_cases h0 : o.size_ = 0
      · simp [swap, h0]
      · simp [swap, h0]

theorem SimpleVector.copy_assign_fields [Inhabited T] {h h' : Heap T} {v w v' : SimpleVector}
    (he : copy_assign h v (some w) = .ok (h', v')) :
    v'.size_ = w.size_ ∧ v'.capacity_ = (if w.size_ = 0 then v.capacity_ else w.capacity_) := by
  unfold copy_assign at he
  by_cases h0 : w.size_ = 0
  · simp only [IsEmpty, h0, decide_True, if_true, pure, Except.pure] at he
    cases he
    simp [Clear, h0]
  · simp only [IsEmpty, h0, decide_False, Bool.false_eq_true, if_false, bind, Except.bind, pure,
      Except.pure] at he
    cases hcp : ctor_copy h w with
    | error e => rw [hcp] at he; cases he
    | ok r =>
      obtain ⟨h1, c⟩ := r
      have hf := SimpleVector.ctor_copy_fields hcp
      rw [hcp] at he
      simp only at he
      split at he
      · cases he
      · cases he
        simp [swap, hf.1, hf.2, h0]

theorem size_t_wrap_of_lt {n : Nat} (hn : n < 2 ^ 64) : size_t_wrap n = n :=
  Nat.mod_eq_of_lt hn

theorem SimpleVector.Resize_spec [Inhabited T] (h : Heap T) (v : SimpleVector) (n : Nat)
    (hl : Live h v) (hn : v.size_ < n) (hb : n * 2 < 2 ^ 64) :
    ∃ h', Resize h v n = .ok (h', ⟨⟨some h.length⟩, n, n * 2⟩)
      ∧ h'.block (some h.length) = some (toList h v ++ List.replicate (n * 2 - v.size_) default)
      ∧ WF h' ⟨⟨some h.length⟩, n, n * 2⟩ := by
  obtain ⟨h1, hre, hblk, _, _⟩ := SimpleVector.ReCapacity_spec h v (n * 2) hl (by omega) (by omega)
  have hlen := SimpleVector.toList_length hl
  refine ⟨h1, ?_, hblk, ?_, ?_⟩
  · simp [Resize, hn, size_t_wrap_of_lt hb, hre, bind, Except.bind, pure, Except.pure]
  · rw [SimpleVector.allocated_of_block (v := ⟨⟨some h.length⟩, n, n * 2⟩) rfl hblk]
    simp [hlen]
    omega
  · show n ≤ n * 2
    omega

theorem SimpleVector.Resize_shrink [Inhabited T] (h : Heap T) (v : SimpleVector) (n : Nat)
    (hn : ¬ v.size_ < n) : Resize h v n = .ok (h, { v with size_ := n }) := by
  simp [Resize, hn, bind, Except.bind, pure, Except.pure]

theorem SimpleVector.copy_assign_spec [Inhabited T] (h : Heap T) (v w : SimpleVector) (m : Nat)
    (hv : allocated h v = some m) (hw : Live h w) (hne : w.size_ ≠ 0) :
    ∃ h', copy_assign h v (some w) = .ok (h', ⟨⟨some h.length⟩, w.size_, w.capacity_⟩)
      ∧ h'.block (some h.length) = some (toList h w)
      ∧ ∀ b, b < h.length → v.items_.raw_ptr_ ≠ some b → h'.block (some b) = h.block (some b) := by
  have hcp := SimpleVector.ctor_copy_spec h w hw
  simp only [hne, if_false] at hcp
  cases hp : v.items_.raw_ptr_ with
  | none =>
    refine ⟨h ++ [some (toList h w)], ?_, Heap.block_append_new h _, ?_⟩
    · simp [copy_assign, IsEmpty, hne, hcp, swap, ArrayPtr.swap, dtor, ArrayPtr.dtor, hp,
        Heap.delete_array, bind, Except.bind, pure, Except.pure]
    · intro b hb _
      exact Heap.block_append_lt h _ b hb
  | some a =>
    simp only [allocated, hp, Heap.slots] at hv
    cases hb : h.block (some a) with
    | none => simp [hb] at hv
    | some cs =>
      have ha := Heap.block_some_lt hb
      have hne2 : a ≠ h.length := by omega
      have hb1 : Heap.block (h ++ [some (toList h w)]) (some a) = some cs := by
        rw [Heap.block_append_lt h _ a ha]; exact hb
      refine ⟨(h ++ [some (toList h w)]).set a none, ?_, ?_, ?_⟩
      · simp [copy_assign, IsEmpty, hne, hcp, swap, ArrayPtr.swap, dtor, ArrayPtr.dtor, hp,
          Heap.delete_array, hb1, bind, Except.bind, pure, Except.pure]
      · rw [Heap.block_set_ne _ _ _ _ hne2, Heap.block_append_new]
      · intro b hbl hbne
        have hba : a ≠ b := by
          intro e
          apply hbne
          rw [e]
        rw [Heap.block_set_ne _ _ _ _ hba, Heap.block_append_lt h _ b hbl]

/-! ## The claims -/

open SimpleVector


/-- C3. On a vector whose `size_` live elements `xs` are inside its buffer and for an offset
`k < size`, `Erase(begin + k)` returns the position at offset `k`; the live elements are `xs`
with the element at offset `k` removed and the others in their order, the size drops by
exactly one and the capacity is the same. -/
theorem Erase_removes (h : Heap T) (v : SimpleVector) (k : Nat)
    (hl : Live h v) (hk : k < v.GetSize) :
    ∃ h' v', Erase h v (v.begin.add k) = .ok (h', v', v'.begin.add k)
      ∧ toList h' v' = (toList h v).eraseIdx k
      ∧ v'.GetSize + 1 = v.GetSize
      ∧ v'.GetCapacity = v.GetCapacity
      ∧ (∀ i, i < k → ∃ x, index h v i = .ok x ∧ index h' v' i = .ok x)
      ∧ (∀ i, k < i → i < v.GetSize → ∃ x, index h v i = .ok x ∧ index h' v' (i - 1) = .ok x) := by
  obtain ⟨h', he, hlst, _⟩ := SimpleVector.Erase_spec h v k hl hk
  simp only [GetSize, GetCapacity] at hk ⊢
  refine ⟨h', { v with size_ := v.size_ - 1 }, he, hlst, ?_, rfl, ?_, ?_⟩
  · show v.size_ - 1 + 1 = v.size_
    omega
  · intro i hi
    obtain ⟨x, hx1, hx2⟩ := SimpleVector.index_of_live hl i (by omega)
    refine ⟨x, hx1, ?_⟩
    rw [SimpleVector.index_ok_iff, hlst, List.getElem?_eraseIdx, if_pos hi]
    exact hx2
  · intro i hki hi
    obtain ⟨x, hx1, hx2⟩ := SimpleVector.index_of_live hl i hi
    refine ⟨x, hx1, ?_⟩
    rw [SimpleVector.index_ok_iff, hlst, List.getElem?_eraseIdx, if_neg (by omega), ← hx2]
    congr 1
    omega

theorem Erase_removes_witness :
    Live ([some [1, 99, 2, 3, 0, 0]] : Heap Nat) ⟨⟨some 0⟩, 4, 6⟩ ∧
    2 < GetSize ⟨⟨some 0⟩, 4, 6⟩ ∧
    ∃ h' v', Erase ([some [1, 99, 2, 3, 0, 0]] : Heap Nat) ⟨⟨some 0⟩, 4, 6⟩
        ((begin ⟨⟨some 0⟩, 4, 6⟩).add 2) = .ok (h', v', v'.begin.add 2)
      ∧ toList h' v' = (toList ([some [1, 99, 2, 3, 0, 0]] : Heap Nat) ⟨⟨some 0⟩, 4, 6⟩).eraseIdx 2
      ∧ v'.GetSize + 1 = GetSize ⟨⟨some 0⟩, 4, 6⟩
      ∧ v'.GetCapacity = GetCapacity ⟨⟨some 0⟩, 4, 6⟩
      ∧ (∀ i, i < 2 → ∃ x, index ([some [1, 99, 2, 3, 0, 0]] : Heap Nat) ⟨⟨some 0⟩, 4, 6⟩ i = .ok x
          ∧ index h' v' i = .ok x)
      ∧ (∀ i, 2 < i → i < GetSize ⟨⟨some 0⟩, 4, 6⟩ →
          ∃ x, index ([some [1, 99, 2, 3, 0, 0]] : Heap Nat) ⟨⟨some 0⟩, 4, 6⟩ i = .ok x
            ∧ index h' v' (i - 1) = .ok x) :=
  ⟨by decide, by decide, Erase_removes _ _ 2 (by decide) (by decide)⟩

/-- C4. `At(i)` fails with the out-of-range error exactly when `i >= size`, in every state
of the vector, the empty one included. When `i < size` it is `operator[](i)`, and on a vector
whose live elements are inside its buffer both return the element at index `i`. `At` is a
read: its embedding has no output state, the store and the vector are the ones passed in. -/
theorem At_checked (h : Heap T) (v : SimpleVector) (i : Nat) :
    (At h v i = .error .out_of_range ↔ v.GetSize ≤ i)
      ∧ (i < v.GetSize → At h v i = index h v i)
      ∧ (Live h v → i < v.GetSize →
          ∃ x, At h v i = .ok x ∧ index h v i = .ok x ∧ (toList h v)[i]? = some x) := by
  refine ⟨SimpleVector.At_out_of_range_iff h v i, SimpleVector.At_eq_index h v i, ?_⟩
  intro hl hi
  obtain ⟨x, hx1, hx2⟩ := SimpleVector.index_of_live hl i hi
  exact ⟨x, by rw [SimpleVector.At_eq_index h v i hi]; exact hx1, hx1, hx2⟩

theorem At_checked_witness :
    Live ([some [1, 2, 3]] : Heap Nat) ⟨⟨some 0⟩, 3, 3⟩ ∧ 1 < GetSize ⟨⟨some 0⟩, 3, 3⟩ ∧
    At ([some [1, 2, 3]] : Heap Nat) ⟨⟨some 0⟩, 3, 3⟩ 1
      = index ([some [1, 2, 3]] : Heap Nat) ⟨⟨some 0⟩, 3, 3⟩ 1 ∧
    ∃ x, At ([some [1, 2, 3]] : Heap Nat) ⟨⟨some 0⟩, 3, 3⟩ 1 = .ok x
      ∧ index ([some [1, 2, 3]] : Heap Nat) ⟨⟨some 0⟩, 3, 3⟩ 1 = .ok x
      ∧ (toList ([some [1, 2, 3]] : Heap Nat) ⟨⟨some 0⟩, 3, 3⟩)[1]? = some x :=
  ⟨by decide, by decide, (At_checked _ _ 1).2.1 (by decide),
    (At_checked _ _ 1).2.2 (by decide) (by decide)⟩

/-- C6. Move construction from `src` returns; the new vector has the buffer, the size, the
capacity and the live elements of `src`, and `src` is left with size 0, capacity 0 and a
null buffer. -/
theorem ctor_move_transfers (h : Heap T) (src : SimpleVector) :
    ∃ dst src', ctor_move src = .ok (dst, src')
      ∧ dst.GetSize = src.GetSize ∧ dst.GetCapacity = src.GetCapacity
      ∧ dst.items_ = src.items_ ∧ toList h dst = toList h src
      ∧ src'.GetSize = 0 ∧ src'.GetCapacity = 0
      ∧ src'.items_.to_bool = false ∧ allocated h src' = some 0 ∧ toList h src' = [] :=
  ⟨⟨⟨src.items_.raw_ptr_⟩, src.size_, src.capacity_⟩, ⟨⟨none⟩, 0, 0⟩, rfl, rfl, rfl, rfl, rfl, rfl,
    rfl, rfl, rfl, rfl⟩

theorem SimpleVector.index_write_spec {h : Heap T} {v : SimpleVector} {a : Nat} {cs : List T}
    (hp : v.items_.raw_ptr_ = some a) (hb : h.block (some a) = some cs) (i : Nat)
    (hi : i < v.size_) (hs : v.size_ ≤ cs.length) (x : T) :
    index_write h v i x = .ok (h.set a (some (cs.set i x))) := by
  simp only [index_write, cassert, hi, decide_True, if_true, bind, Except.bind, ArrayPtr.Get,
    Ptr.add, Nat.zero_add, hp, Heap.store_eq hb i (by omega)]

theorem take_set_lt (l : List T) (n i : Nat) (x : T) :
    (l.set i x).take n = (l.take n).set i x := by
  apply List.ext_getElem?
  intro j
  simp only [List.getElem?_take, List.getElem?_set, List.length_take]
  split_ifs <;> first | rfl | (exfalso; omega)

/-- C9. Copy construction from a vector `src` whose live elements are inside its buffer
returns a vector with the size, the live elements (in order) and the reported capacity of
`src`, so that `copy == src` is true; the elements of `src` are what they were. The two have
separate storage: a write to an element of the copy leaves the elements of `src` as they
were, and a write to an element of `src` leaves the elements of the copy as they were. -/
theorem ctor_copy_independent [Inhabited T] [DecidableEq T] (h : Heap T) (src : SimpleVector)
    (hl : Live h src) :
    ∃ h' c, ctor_copy h src = .ok (h', c)
      ∧ c.GetSize = src.GetSize
      ∧ toList h' c = toList h src
      ∧ eq h' c src = .ok true
      ∧ c.GetCapacity = src.GetCapacity
      ∧ toList h' src = toList h src
      ∧ (∀ i x, i < c.GetSize → ∃ h'', index_write h' c i x = .ok h''
          ∧ toList h'' src = toList h src ∧ toList h'' c = (toList h src).set i x)
      ∧ (∀ i x, i < src.GetSize → ∃ h'', index_write h' src i x = .ok h''
          ∧ toList h'' c = toList h src ∧ toList h'' src = (toList h src).set i x) := by
  have hcp := SimpleVector.ctor_copy_spec h src hl
  have hlen := SimpleVector.toList_length hl
  by_cases h0 : src.size_ = 0
  · simp only [h0, if_true] at hcp
    have hlc : Live h (⟨⟨none⟩, 0, src.capacity_⟩ : SimpleVector) := by
      simp [Live, allocated]
    have hnil : toList h src = [] := List.length_eq_zero.mp (by omega)
    refine ⟨h, ⟨⟨none⟩, 0, src.capacity_⟩, hcp, by simp [GetSize, h0], ?_, ?_, rfl, rfl, ?_, ?_⟩
    · rw [hnil]
      rfl
    · rw [SimpleVector.eq_spec h _ src hlc hl (Nat.zero_le _)]
      simp [toList]
    · intro i x hi
      simp [GetSize] at hi
    · intro i x hi
      simp only [GetSize] at hi
      omega
  · simp only [h0, if_false] at hcp
    rcases SimpleVector.Live_cases hl with ⟨_, h1⟩ | ⟨a, cs, hp, hb, hs⟩
    · omega
    · have ha := Heap.block_some_lt hb
      have hne : a ≠ h.length := by omega
      have hxs := SimpleVector.toList_of_block hp hb
      have hb1 : Heap.block (h ++ [some (toList h src)]) (some a) = some cs := by
        rw [Heap.block_append_lt h _ a ha]; exact hb
      have hbc : Heap.block (h ++ [some (toList h src)]) (some h.length) = some (toList h src) :=
        Heap.block_append_new h _
      have hc1 : toList (h ++ [some (toList h src)]) ⟨⟨some h.length⟩, src.size_, src.capacity_⟩
          = toList h src := by
        rw [SimpleVector.toList_of_block (v := ⟨⟨some h.length⟩, src.size_, src.capacity_⟩) rfl hbc]
        show List.take src.size_ (toList h src) = toList h src
        exact List.take_of_length_le (by omega)
      have hs1 : toList (h ++ [some (toList h src)]) src = toList h src := by
        rw [SimpleVector.toList_of_block hp hb1, hxs]
      have hlc : Live (h ++ [some (toList h src)])
          (⟨⟨some h.length⟩, src.size_, src.capacity_⟩ : SimpleVector) := by
        unfold Live
        rw [SimpleVector.allocated_of_block (v := ⟨⟨some h.length⟩, src.size_, src.capacity_⟩)
          rfl hbc]
        show src.size_ ≤ _
        omega
      have hls : Live (h ++ [some (toList h src)]) src := by
        unfold Live
        rw [SimpleVector.allocated_of_block hp hb1]
        exact hs
      have hal : a < (h ++ [some (toList h src)]).length := by simp; omega
      have hll : h.length < (h ++ [some (toList h src)]).length := by simp
      refine ⟨h ++ [some (toList h src)], ⟨⟨some h.length⟩, src.size_, src.capacity_⟩, hcp, rfl,
        hc1, ?_, rfl, hs1, ?_, ?_⟩
      · rw [SimpleVector.eq_spec _ _ src hlc hls (Nat.le_refl _), hc1, hs1]
        show Except.ok (decide (toList h src = List.take src.size_ (toList h src))) = _
        rw [List.take_of_length_le (by omega)]
        simp
      · intro i x hi
        have hi2 : i < src.size_ := hi
        have hs2 : src.size_ ≤ (toList h src).length := by omega
        refine ⟨_, SimpleVector.index_write_spec
          (v := ⟨⟨some h.length⟩, src.size_, src.capacity_⟩) rfl hbc i hi2 hs2 x, ?_, ?_⟩
        · rw [SimpleVector.toList_of_block hp
            (by rw [Heap.block_set_ne _ _ _ _ (Ne.symm hne)]; exact hb1), hxs]
        · rw [SimpleVector.toList_of_block (v := ⟨⟨some h.length⟩, src.size_, src.capacity_⟩) rfl
            (Heap.block_set_same _ _ _ hll)]
          show List.take src.size_ _ = _
          exact List.take_of_length_le (by simp; omega)
      · intro i x hi
        refine ⟨_, SimpleVector.index_write_spec hp hb1 i hi hs x, ?_, ?_⟩
        · rw [SimpleVector.toList_of_block (v := ⟨⟨some h.length⟩, src.size_, src.capacity_⟩) rfl
            (by rw [Heap.block_set_ne _ _ _ _ hne]; exact hbc)]
          show List.take src.size_ _ = _
          exact List.take_of_length_le (by omega)
        · rw [SimpleVector.toList_of_block hp (Heap.block_set_same _ _ _ hal), hxs]
          exact take_set_lt _ _ _ _

theorem ctor_copy_independent_witness :
    Live ([some [1, 2, 3]] : Heap Nat) ⟨⟨some 0⟩, 2, 3⟩ ∧
    ∃ h' c, ctor_copy ([some [1, 2, 3]] : Heap Nat) ⟨⟨some 0⟩, 2, 3⟩ = .ok (h', c)
      ∧ c.GetSize = GetSize ⟨⟨some 0⟩, 2, 3⟩
      ∧ toList h' c = toList ([some [1, 2, 3]] : Heap Nat) ⟨⟨some 0⟩, 2, 3⟩
      ∧ eq h' c ⟨⟨some 0⟩, 2, 3⟩ = .ok true
      ∧ c.GetCapacity = GetCapacity ⟨⟨some 0⟩, 2, 3⟩
      ∧ toList h' ⟨⟨some 0⟩, 2, 3⟩ = toList ([some [1, 2, 3]] : Heap Nat) ⟨⟨some 0⟩, 2, 3⟩
      ∧ (∀ i x, i < c.GetSize → ∃ h'', index_write h' c i x = .ok h''
          ∧ toList h'' ⟨⟨some 0⟩, 2, 3⟩ = toList ([some [1, 2, 3]] : Heap Nat) ⟨⟨some 0⟩, 2, 3⟩
          ∧ toList h'' c = (toList ([some [1, 2, 3]] : Heap Nat) ⟨⟨some 0⟩, 2, 3⟩).set i x)
      ∧ (∀ i x, i < GetSize ⟨⟨some 0⟩, 2, 3⟩ →
          ∃ h'', index_write h' ⟨⟨some 0⟩, 2, 3⟩ i x = .ok h''
          ∧ toList h'' c = toList ([some [1, 2, 3]] : Heap Nat) ⟨⟨some 0⟩, 2, 3⟩
          ∧ toList h'' ⟨⟨some 0⟩, 2, 3⟩
              = (toList ([some [1, 2, 3]] : Heap Nat) ⟨⟨some 0⟩, 2, 3⟩).set i x) :=
  ⟨by decide, ctor_copy_independent _ _ (by decide)⟩

/-- C10. `Reserve(n)` with `n <= capacity` returns and leaves the store and the vector
exactly as they were. On a vector whose live elements are inside its buffer and whose size
is at most its capacity, `Reserve(n)` returns for every `n`, the capacity afterwards is at
least the capacity before and is exactly `n` when `n > capacity`, and the size and the live
elements are the same. -/
theorem Reserve_grows_only [Inhabited T] (h : Heap T) (v : SimpleVector) (n : Nat) :
    (n ≤ v.GetCapacity → SimpleVector.Reserve h v n = .ok (h, v))
      ∧ (Live h v → v.GetSize ≤ v.GetCapacity →
          ∃ h' v', SimpleVector.Reserve h v n = .ok (h', v')
            ∧ v.GetCapacity ≤ v'.GetCapacity
            ∧ (v.GetCapacity < n → v'.GetCapacity = n)
            ∧ v'.GetSize = v.GetSize
            ∧ toList h' v' = toList h v) := by
  simp only [GetCapacity, GetSize]
  have hnoop : n ≤ v.capacity_ → SimpleVector.Reserve h v n = .ok (h, v) := by
    intro hn
    simp [SimpleVector.Reserve, Nat.not_lt.mpr hn, pure, Except.pure]
  refine ⟨hnoop, ?_⟩
  intro hl hs
  by_cases hn : v.capacity_ < n
  · obtain ⟨h', he, hlst, _⟩ := SimpleVector.Reserve_spec h v n hl hs hn
    exact ⟨h', _, he, Nat.le_of_lt hn, fun _ => rfl, rfl, hlst⟩
  · exact ⟨h, v, hnoop (by omega), Nat.le_refl _, fun hc => absurd hc hn, rfl, rfl⟩

theorem Reserve_grows_only_witness :
    Live ([some [1, 2, 3]] : Heap Nat) ⟨⟨some 0⟩, 2, 3⟩ ∧
    GetSize ⟨⟨some 0⟩, 2, 3⟩ ≤ GetCapacity ⟨⟨some 0⟩, 2, 3⟩ ∧
    2 ≤ GetCapacity ⟨⟨some 0⟩, 2, 3⟩ ∧
    SimpleVector.Reserve ([some [1, 2, 3]] : Heap Nat) ⟨⟨some 0⟩, 2, 3⟩ 2
      = .ok ([some [1, 2, 3]], ⟨⟨some 0⟩, 2, 3⟩) ∧
    ∃ h' v', SimpleVector.Reserve ([some [1, 2, 3]] : Heap Nat) ⟨⟨some 0⟩, 2, 3⟩ 10 = .ok (h', v')
      ∧ GetCapacity ⟨⟨some 0⟩, 2, 3⟩ ≤ v'.GetCapacity
      ∧ (GetCapacity ⟨⟨some 0⟩, 2, 3⟩ < 10 → v'.GetCapacity = 10)
      ∧ v'.GetSize = GetSize ⟨⟨some 0⟩, 2, 3⟩
      ∧ toList h' v' = toList ([some [1, 2, 3]] : Heap Nat) ⟨⟨some 0⟩, 2, 3⟩ :=
  ⟨by decide, by decide, by decide, (Reserve_grows_only _ _ 2).1 (by decide),
    (Reserve_grows_only _ _ 10).2 (by decide) (by decide)⟩

/-- C5 (the code at the failing input). The destination is default-constructed and the
source is the vector `{1, 2, 3}`. After `dst = std::move(src)` the destination holds
`1, 2, 3`, and the source still reports `GetSize() == 3` and capacity 3 over a null buffer,
so that reading `src[0]` is undefined; move construction from the same source leaves it with
size 0. -/
theorem move_assign_source_keeps_size :
    ctor_list ([] : Heap Nat) [1, 2, 3] = .ok ([some [1, 2, 3]], ⟨⟨some 0⟩, 3, 3⟩)
      ∧ toList ([some [1, 2, 3]] : Heap Nat) (move_assign {} ⟨⟨some 0⟩, 3, 3⟩).1 = [1, 2, 3]
      ∧ (move_assign {} ⟨⟨some 0⟩, 3, 3⟩).2.GetSize = 3
      ∧ (move_assign {} ⟨⟨some 0⟩, 3, 3⟩).2.GetCapacity = 3
      ∧ (move_assign {} ⟨⟨some 0⟩, 3, 3⟩).2.items_.raw_ptr_ = none
      ∧ index ([some [1, 2, 3]] : Heap Nat) (move_assign {} ⟨⟨some 0⟩, 3, 3⟩).2 0
          = .error .undefined_behaviour
      ∧ (ctor_move ⟨⟨some 0⟩, 3, 3⟩).map (fun r => r.2.GetSize) = .ok 0 := by
  refine ⟨rfl, rfl, rfl, rfl, rfl, rfl, rfl⟩

/-- C7 (the code at the failing input). The source is `{1, 2, 3}` after `PopBack()`: size 2,
capacity 3, a buffer of 3 slots. Its copy has a buffer of 2 slots and capacity 3, so it is not
well-formed, and `PushBack` on the copy writes outside the buffer. The move assignment of
`{1, 2, 3}` to a vector `{7}` leaves the source with capacity 3 over the 1-slot buffer. -/
theorem ctor_copy_capacity_exceeds_buffer :
    ctor_list ([] : Heap Nat) [1, 2, 3] = .ok ([some [1, 2, 3]], ⟨⟨some 0⟩, 3, 3⟩)
      ∧ PopBack ⟨⟨some 0⟩, 3, 3⟩ = .ok ⟨⟨some 0⟩, 2, 3⟩
      ∧ WF ([some [1, 2, 3]] : Heap Nat) ⟨⟨some 0⟩, 2, 3⟩
      ∧ ctor_copy ([some [1, 2, 3]] : Heap Nat) ⟨⟨some 0⟩, 2, 3⟩
          = .ok ([some [1, 2, 3], some [1, 2]], ⟨⟨some 1⟩, 2, 3⟩)
      ∧ allocated ([some [1, 2, 3], some [1, 2]] : Heap Nat) ⟨⟨some 1⟩, 2, 3⟩ = some 2
      ∧ GetCapacity ⟨⟨some 1⟩, 2, 3⟩ = 3
      ∧ ¬ WF ([some [1, 2, 3], some [1, 2]] : Heap Nat) ⟨⟨some 1⟩, 2, 3⟩
      ∧ PushBack ([some [1, 2, 3], some [1, 2]] : Heap Nat) ⟨⟨some 1⟩, 2, 3⟩ (.object 9)
          = .error .undefined_behaviour
      ∧ allocated ([some [7], some [1, 2, 3]] : Heap Nat)
          (move_assign ⟨⟨some 0⟩, 1, 1⟩ ⟨⟨some 1⟩, 3, 3⟩).2 = some 1
      ∧ (move_assign ⟨⟨some 0⟩, 1, 1⟩ ⟨⟨some 1⟩, 3, 3⟩).2.GetCapacity = 3 := by
  refine ⟨rfl, rfl, by decide, rfl, rfl, rfl, by decide, rfl, rfl, rfl⟩

theorem SimpleVector.default_live (h : Heap T) : Live h ({} : SimpleVector) := by
  simp [Live, allocated]

theorem SimpleVector.ctor_reserve_spec [Inhabited T] (h : Heap T) (obj : ReserveProxyObj) :
    ∃ h' c, ctor_reserve h obj = .ok (h', c) ∧ c.size_ = 0 ∧ c.capacity_ = obj.GetCapacity
      ∧ WF h' c := by
  by_cases hn : obj.GetCapacity = 0
  · refine ⟨h, {}, ?_, rfl, ?_, ?_⟩
    · simp [ctor_reserve, SimpleVector.Reserve, hn, pure, Except.pure]
    · simp [hn]
    · simp [WF, allocated]
  · obtain ⟨h', he, _, hwf⟩ := SimpleVector.Reserve_spec h {} obj.GetCapacity
      (SimpleVector.default_live h) (Nat.le_refl _) (by show 0 < _; omega)
    exact ⟨h', _, he, rfl, rfl, hwf⟩

/-- C8. `size <= capacity` (sizes are natural numbers) holds for the result of every
constructor, and every public operation that returns from a state with `size <= capacity`
returns a state with `size <= capacity`: `PushBack`, `Insert`, `PopBack`, `Erase`, `Resize`,
`Reserve`, `Clear`, `swap`, copy assignment and move assignment. For `PushBack` and `Insert`
this holds for every argument, a reference into the vector included. For `Resize` the claim's
natural-number sizes are the hypothesis that `new_size * 2` does not wrap when `Resize` grows.
The operations return when they are called within their precondition on a well-formed
vector. -/
theorem size_le_capacity_preserved [Inhabited T] (h : Heap T) (v w : SimpleVector) (x : T)
    (k n : Nat) (init : List T) (obj : ReserveProxyObj)
    (hv : v.GetSize ≤ v.GetCapacity) (hw : w.GetSize ≤ w.GetCapacity) :
    ctor_default.GetSize ≤ ctor_default.GetCapacity
      ∧ (∃ h' c, ctor_fill h n x = .ok (h', c) ∧ c.GetSize ≤ c.GetCapacity)
      ∧ (∃ h' c, ctor_size h n = .ok (h', c) ∧ c.GetSize ≤ c.GetCapacity)
      ∧ (∃ h' c, ctor_list h init = .ok (h', c) ∧ c.GetSize ≤ c.GetCapacity)
      ∧ (Live h v → ∃ r, ctor_copy h v = .ok r)
      ∧ (∀ h' c, ctor_copy h v = .ok (h', c) → c.GetSize ≤ c.GetCapacity)
      ∧ (∃ c v', ctor_move v = .ok (c, v') ∧ c.GetSize ≤ c.GetCapacity
          ∧ v'.GetSize ≤ v'.GetCapacity)
      ∧ (∃ h' c, ctor_reserve h obj = .ok (h', c) ∧ c.GetSize ≤ c.GetCapacity)
      ∧ (WF h v → ∃ r, PushBack h v (.object x) = .ok r)
      ∧ (∀ item h' v', PushBack h v item = .ok (h', v') → v'.GetSize ≤ v'.GetCapacity)
      ∧ (WF h v → k ≤ v.GetSize → ∃ r, Insert h v (v.begin.add k) (.object x) = .ok r)
      ∧ (∀ item pos h' v' it, Insert h v pos item = .ok (h', v', it) →
          v'.GetSize ≤ v'.GetCapacity)
      ∧ (∀ item pos h' v' it, Insert_move h v pos item = .ok (h', v', it) →
          v'.GetSize ≤ v'.GetCapacity)
      ∧ (v.IsEmpty = false → ∃ v', PopBack v = .ok v')
      ∧ (∀ v', PopBack v = .ok v' → v'.GetSize ≤ v'.GetCapacity)
      ∧ (Live h v → k < v.GetSize → ∃ r, Erase h v (v.begin.add k) = .ok r)
      ∧ (∀ pos h' v' it, Erase h v pos = .ok (h', v', it) → v'.GetSize ≤ v'.GetCapacity)
      ∧ (Live h v → (v.GetSize < n → n * 2 < 2 ^ 64) → ∃ r, Resize h v n = .ok r)
      ∧ ((v.GetSize < n → n * 2 < 2 ^ 64) →
          ∀ h' v', Resize h v n = .ok (h', v') → v'.GetSize ≤ v'.GetCapacity)
      ∧ (Live h v → ∃ r, SimpleVector.Reserve h v n = .ok r)
      ∧ (∀ h' v', SimpleVector.Reserve h v n = .ok (h', v') → v'.GetSize ≤ v'.GetCapacity)
      ∧ v.Clear.GetSize ≤ v.Clear.GetCapacity
      ∧ (v.swap w).1.GetSize ≤ (v.swap w).1.GetCapacity
      ∧ (v.swap w).2.GetSize ≤ (v.swap w).2.GetCapacity
      ∧ (WF h v → Live h w → ∃ r, copy_assign h v (some w) = .ok r)
      ∧ (∀ h' v', copy_assign h v (some w) = .ok (h', v') → v'.GetSize ≤ v'.GetCapacity)
      ∧ copy_assign h v none = .ok (h, v)
      ∧ (v.move_assign w).1.GetSize ≤ (v.move_assign w).1.GetCapacity
      ∧ (v.move_assign w).2.GetSize ≤ (v.move_assign w).2.GetCapacity := by
  simp only [GetSize, GetCapacity] at hv hw ⊢
  refine ⟨Nat.le_refl _, ?_, ?_, ?_, ?_, ?_, ?_, ?_, ?_, ?_, ?_, ?_, ?_, ?_, ?_, ?_, ?_, ?_, ?_,
    ?_, ?_, ?_, ?_, ?_, ?_, ?_, ?_, ?_, ?_⟩
  · by_cases h0 : n = 0
    · exact ⟨h, ⟨⟨none⟩, 0, 0⟩, by rw [SimpleVector.ctor_fill_spec]; simp [h0], Nat.le_refl _⟩
    · exact ⟨h ++ [some (List.replicate n x)], ⟨⟨some h.length⟩, n, n⟩,
        by rw [SimpleVector.ctor_fill_spec]; simp only [h0, if_false], Nat.le_refl _⟩
  · by_cases h0 : n = 0
    · exact ⟨h, ⟨⟨none⟩, 0, 0⟩, by rw [ctor_size, SimpleVector.ctor_fill_spec]; simp [h0],
        Nat.le_refl _⟩
    · exact ⟨h ++ [some (List.replicate n default)], ⟨⟨some h.length⟩, n, n⟩,
        by rw [ctor_size, SimpleVector.ctor_fill_spec]; simp only [h0, if_false], Nat.le_refl _⟩
  · by_cases h0 : init.length = 0
    · exact ⟨h, ⟨⟨none⟩, 0, 0⟩, by rw [SimpleVector.ctor_list_spec]; simp [h0], Nat.le_refl _⟩
    · exact ⟨h ++ [some init], ⟨⟨some h.length⟩, init.length, init.length⟩,
        by rw [SimpleVector.ctor_list_spec]; simp only [h0, if_false], Nat.le_refl _⟩
  · intro hl
    exact ⟨_, SimpleVector.ctor_copy_spec h v hl⟩
  · intro h' c he
    have hf := SimpleVector.ctor_copy_fields he
    omega
  · exact ⟨⟨⟨v.items_.raw_ptr_⟩, v.size_, v.capacity_⟩, ⟨⟨none⟩, 0, 0⟩, rfl, hv, Nat.le_refl _⟩
  · obtain ⟨h', c, he, hs, _, _⟩ := SimpleVector.ctor_reserve_spec h obj
    exact ⟨h', c, he, by omega⟩
  · intro hwf
    obtain ⟨h', v', he, _⟩ := SimpleVector.PushBack_spec h v x hwf
    exact ⟨_, he⟩
  · intro item h' v' he
    have hf := SimpleVector.PushBack_fields he
    rw [hf.1, hf.2]
    split_ifs <;> omega
  · intro hwf hk
    obtain ⟨h', v', he, _⟩ := SimpleVector.Insert_spec h v k x hwf hk
    exact ⟨_, he⟩
  · intro item pos h' v' it he
    have hf := SimpleVector.Insert_fields he
    rw [hf.1, hf.2]
    split_ifs <;> omega
  · intro item pos h' v' it he
    rw [SimpleVector.Insert_move_eq] at he
    have hf := SimpleVector.Insert_fields he
    rw [hf.1, hf.2]
    split_ifs <;> omega
  · intro hne
    refine ⟨{ v with size_ := v.size_ - 1 }, ?_⟩
    simp [PopBack, cassert, hne, bind, Except.bind, pure, Except.pure]
  · intro v' he
    have hf := SimpleVector.PopBack_fields he
    omega
  · intro hl hk
    obtain ⟨h', he, _⟩ := SimpleVector.Erase_spec h v k hl hk
    exact ⟨_, he⟩
  · intro pos h' v' it he
    have hf := SimpleVector.Erase_fields he
    omega
  · intro hl hb
    by_cases hn : v.size_ < n
    · obtain ⟨h', he, _⟩ := SimpleVector.Resize_spec h v n hl hn (hb hn)
      exact ⟨_, he⟩
    · exact ⟨_, SimpleVector.Resize_shrink h v n hn⟩
  · intro hb h' v' he
    have hf := SimpleVector.Resize_fields he
    rw [hf.1, hf.2]
    by_cases hn : v.size_ < n
    · rw [if_pos hn, size_t_wrap_of_lt (hb hn)]
      omega
    · rw [if_neg hn]
      omega
  · intro hl
    by_cases hn : v.capacity_ < n
    · obtain ⟨h', he, _⟩ := SimpleVector.Reserve_spec h v n hl hv hn
      exact ⟨_, he⟩
    · exact ⟨(h, v), by simp [SimpleVector.Reserve, hn, pure, Except.pure]⟩
  · intro h' v' he
    have hf := SimpleVector.Reserve_fields he
    rw [hf.1, hf.2]
    split_ifs <;> omega
  · exact Nat.zero_le _
  · exact hw
  · exact hv
  · intro hwf hl
    by_cases h0 : w.size_ = 0
    · exact ⟨(h, v.Clear), by simp [copy_assign, SimpleVector.IsEmpty, h0, pure, Except.pure]⟩
    · obtain ⟨h', he, _⟩ := SimpleVector.copy_assign_spec h v w _ hwf.1 hl h0
      exact ⟨_, he⟩
  · intro h' v' he
    have hf := SimpleVector.copy_assign_fields he
    rw [hf.1, hf.2]
    split_ifs <;> omega
  · rfl
  · exact hw
  · exact hw

theorem size_le_capacity_preserved_witness :
    GetSize ⟨⟨some 0⟩, 3, 3⟩ ≤ GetCapacity ⟨⟨some 0⟩, 3, 3⟩
      ∧ GetSize ⟨⟨some 1⟩, 1, 1⟩ ≤ GetCapacity ⟨⟨some 1⟩, 1, 1⟩
      ∧ WF ([some [1, 2, 3], some [7]] : Heap Nat) ⟨⟨some 0⟩, 3, 3⟩
      ∧ Live ([some [1, 2, 3], some [7]] : Heap Nat) ⟨⟨some 1⟩, 1, 1⟩
      ∧ (∃ r, ctor_copy ([some [1, 2, 3], some [7]] : Heap Nat) ⟨⟨some 0⟩, 3, 3⟩ = .ok r
          ∧ r.2.GetSize ≤ r.2.GetCapacity)
      ∧ (∃ r, PushBack ([some [1, 2, 3], some [7]] : Heap Nat) ⟨⟨some 0⟩, 3, 3⟩ (.object 9)
            = .ok r
          ∧ r.2.GetSize ≤ r.2.GetCapacity)
      ∧ (∃ r, Insert ([some [1, 2, 3], some [7]] : Heap Nat) ⟨⟨some 0⟩, 3, 3⟩
            ((begin ⟨⟨some 0⟩, 3, 3⟩).add 1) (.object 9) = .ok r
          ∧ r.2.1.GetSize ≤ r.2.1.GetCapacity)
      ∧ (∃ r, Insert_move ([some [1, 2, 3], some [7]] : Heap Nat) ⟨⟨some 0⟩, 3, 3⟩
            ((begin ⟨⟨some 0⟩, 3, 3⟩).add 1) (.object 9) = .ok r
          ∧ r.2.1.GetSize ≤ r.2.1.GetCapacity)
      ∧ (∃ v', PopBack ⟨⟨some 0⟩, 3, 3⟩ = .ok v' ∧ v'.GetSize ≤ v'.GetCapacity)
      ∧ (∃ r, Erase ([some [1, 2, 3], some [7]] : Heap Nat) ⟨⟨some 0⟩, 3, 3⟩
            ((begin ⟨⟨some 0⟩, 3, 3⟩).add 1) = .ok r
          ∧ r.2.1.GetSize ≤ r.2.1.GetCapacity)
      ∧ (∃ r, Resize ([some [1, 2, 3], some [7]] : Heap Nat) ⟨⟨some 0⟩, 3, 3⟩ 5 = .ok r
          ∧ r.2.GetSize ≤ r.2.GetCapacity)
      ∧ (∃ r, SimpleVector.Reserve ([some [1, 2, 3], some [7]] : Heap Nat) ⟨⟨some 0⟩, 3, 3⟩ 5
            = .ok r
          ∧ r.2.GetSize ≤ r.2.GetCapacity)
      ∧ (∃ r, copy_assign ([some [1, 2, 3], some [7]] : Heap Nat) ⟨⟨some 0⟩, 3, 3⟩
            (some ⟨⟨some 1⟩, 1, 1⟩) = .ok r
          ∧ r.2.GetSize ≤ r.2.GetCapacity) := by
  obtain ⟨_, _, _, _, hcopy, hcopy2, _, _, hpush, hpush2, hins, hins2, hinm, hpop, hpop2, hera, hera2,
    hres, hres2, hrsv, hrsv2, _, _, _, hcas, hcas2, _, _, _⟩ :=
    size_le_capacity_preserved ([some [1, 2, 3], some [7]] : Heap Nat) ⟨⟨some 0⟩, 3, 3⟩
      ⟨⟨some 1⟩, 1, 1⟩ 9 1 5 [4, 5] (SimpleVectorModel.Reserve 10) (by decide) (by decide)
  refine ⟨by decide, by decide, by decide, by decide, ?_, ?_, ?_, ?_, ?_, ?_, ?_, ?_, ?_⟩
  · obtain ⟨r, hr⟩ := hcopy (by decide)
    exact ⟨r, hr, hcopy2 r.1 r.2 hr⟩
  · obtain ⟨r, hr⟩ := hpush (by decide)
    exact ⟨r, hr, hpush2 _ r.1 r.2 hr⟩
  · obtain ⟨r, hr⟩ := hins (by decide) (by decide)
    exact ⟨r, hr, hins2 _ _ r.1 r.2.1 r.2.2 hr⟩
  · obtain ⟨r, hr⟩ := hins (by decide) (by decide)
    exact ⟨r, hr, hinm _ _ r.1 r.2.1 r.2.2 hr⟩
  · obtain ⟨r, hr⟩ := hpop (by decide)
    exact ⟨r, hr, hpop2 r hr⟩
  · obtain ⟨r, hr⟩ := hera (by decide) (by decide)
    exact ⟨r, hr, hera2 _ r.1 r.2.1 r.2.2 hr⟩
  · obtain ⟨r, hr⟩ := hres (by decide) (fun _ => by decide)
    exact ⟨r, hr, hres2 (fun _ => by decide) r.1 r.2 hr⟩
  · obtain ⟨r, hr⟩ := hrsv (by decide)
    exact ⟨r, hr, hrsv2 r.1 r.2 hr⟩
  · obtain ⟨r, hr⟩ := hcas (by decide) (by decide)
    exact ⟨r, hr, hcas2 r.1 r.2 hr⟩

theorem SimpleVector.PushBack_each_spec [Inhabited T] (vs : List T) :
    ∀ (h : Heap T) (v : SimpleVector), WF h v →
    ∃ h' v', PushBack_each h v vs = .ok (h', v') ∧ WF h' v'
      ∧ v'.size_ = v.size_ + vs.length
      ∧ toList h' v' = toList h v ++ vs
      ∧ (v.size_ + vs.length ≤ v.capacity_ → v'.capacity_ = v.capacity_) := by
  induction vs with
  | nil =>
    intro h v hw
    exact ⟨h, v, rfl, hw, rfl, by simp, fun _ => rfl⟩
  | cons x xs ih =>
    intro h v hw
    obtain ⟨h1, v1, he, hw1, hs1, hc1, hl1⟩ := SimpleVector.PushBack_spec h v x hw
    obtain ⟨h2, v2, he2, hw2, hs2, hl2, hc2⟩ := ih h1 v1 hw1
    refine ⟨h2, v2, ?_, hw2, ?_, ?_, ?_⟩
    · simp only [PushBack_each, he, bind, Except.bind]
      exact he2
    · rw [hs2, hs1, List.length_cons]
      omega
    · rw [hl2, hl1]
      simp
    · intro hle
      rw [List.length_cons] at hle
      have hne : v.size_ ≠ v.capacity_ := by omega
      rw [if_neg hne] at hc1
      rw [hc2 (by omega), hc1]

theorem SimpleVector.default_WF (h : Heap T) : WF h ({} : SimpleVector) := by
  simp [WF, allocated]

/-- C11. Starting from a default-constructed vector, `PushBack` of each value of a finite
sequence `vs` in order returns a vector whose size is the length of `vs` and whose live
elements are `vs` in order, whatever the number of reallocations on the way. -/
theorem PushBack_each_from_empty [Inhabited T] (h : Heap T) (vs : List T) :
    ∃ h' v', PushBack_each h ctor_default vs = .ok (h', v')
      ∧ v'.GetSize = vs.length
      ∧ toList h' v' = vs
      ∧ (∀ i x, vs[i]? = some x → index h' v' i = .ok x) := by
  obtain ⟨h', v', he, _, hs, hl, _⟩ :=
    SimpleVector.PushBack_each_spec vs h {} (SimpleVector.default_WF h)
  have hl2 : toList h' v' = vs := by
    rw [hl]
    simp [toList]
  refine ⟨h', v', he, ?_, hl2, ?_⟩
  · show v'.size_ = _
    rw [hs]
    show 0 + _ = _
    omega
  · intro i x hx
    rw [SimpleVector.index_ok_iff, hl2]
    exact hx

/-- C16. Starting from a default-constructed vector, `Reserve(n)` (or the constructor from
`Reserve(n)`) followed by `PushBack` of `k <= n` values returns a vector of size `k` whose
capacity is exactly `n`, holding the pushed values in order. -/
theorem Reserve_then_PushBack_each [Inhabited T] (h : Heap T) (n : Nat) (vs : List T)
    (hk : vs.length ≤ n) :
    ∃ h1 v1 h2 v2, SimpleVector.Reserve h ctor_default n = .ok (h1, v1)
      ∧ ctor_reserve h (SimpleVectorModel.Reserve n) = .ok (h1, v1)
      ∧ v1.GetSize = 0 ∧ v1.GetCapacity = n
      ∧ PushBack_each h1 v1 vs = .ok (h2, v2)
      ∧ v2.GetSize = vs.length
      ∧ v2.GetCapacity = n
      ∧ toList h2 v2 = vs := by
  have hres : ∃ h1 v1, SimpleVector.Reserve h ctor_default n = .ok (h1, v1) ∧ WF h1 v1
      ∧ v1.size_ = 0 ∧ v1.capacity_ = n ∧ toList h1 v1 = [] := by
    by_cases hn : n = 0
    · subst hn
      exact ⟨h, {}, by simp [SimpleVector.Reserve, ctor_default, pure, Except.pure],
        SimpleVector.default_WF h, rfl, rfl, by simp [toList]⟩
    · obtain ⟨h1, he, hl, hw⟩ := SimpleVector.Reserve_spec h {} n (SimpleVector.default_live h)
        (Nat.le_refl _) (by show 0 < n; omega)
      exact ⟨h1, _, he, hw, rfl, rfl, by rw [hl]; simp [toList]⟩
  obtain ⟨h1, v1, he1, hw1, hs1, hc1, hl1⟩ := hres
  obtain ⟨h2, v2, he2, _, hs2, hl2, hc2⟩ := SimpleVector.PushBack_each_spec vs h1 v1 hw1
  refine ⟨h1, v1, h2, v2, he1, he1, hs1, hc1, he2, ?_, ?_, ?_⟩
  · show v2.size_ = _
    omega
  · show v2.capacity_ = _
    rw [hc2 (by omega), hc1]
  · rw [hl2, hl1]
    simp

theorem Reserve_then_PushBack_each_witness :
    [1, 2, 3, 4, 5].length ≤ 10 ∧
    ∃ h1 v1 h2 v2, SimpleVector.Reserve ([] : Heap Nat) ctor_default 10 = .ok (h1, v1)
      ∧ ctor_reserve ([] : Heap Nat) (SimpleVectorModel.Reserve 10) = .ok (h1, v1)
      ∧ v1.GetSize = 0 ∧ v1.GetCapacity = 10
      ∧ PushBack_each h1 v1 [1, 2, 3, 4, 5] = .ok (h2, v2)
      ∧ v2.GetSize = [1, 2, 3, 4, 5].length
      ∧ v2.GetCapacity = 10
      ∧ toList h2 v2 = [1, 2, 3, 4, 5] :=
  ⟨by decide, Reserve_then_PushBack_each _ 10 [1, 2, 3, 4, 5] (by decide)⟩

/-- C18. On a well-formed vector, `PushBack` and `Insert` (both overloads, at an offset
`k <= size`) return; when `size == capacity` before the call the capacity afterwards is exactly
`max(2 * size, 1)`, so capacity 0 becomes 1 and capacity `c > 0` becomes `2 * c`, and when
`size < capacity` the capacity is the same as before. The last two clauses give the same
capacity for every call that returns, whatever the argument refers to and whatever the
position. -/
theorem growth_policy [Inhabited T] (h : Heap T) (v : SimpleVector) (x : T) (k : Nat)
    (hw : WF h v) (hk : k ≤ v.GetSize) :
    ∃ h1 v1 h2 v2 it, PushBack h v (.object x) = .ok (h1, v1)
      ∧ Insert h v (v.begin.add k) (.object x) = .ok (h2, v2, it)
      ∧ Insert_move h v (v.begin.add k) (.object x) = .ok (h2, v2, it)
      ∧ (v.GetSize = v.GetCapacity →
          v1.GetCapacity = max (2 * v.GetSize) 1 ∧ v2.GetCapacity = max (2 * v.GetSize) 1)
      ∧ (v.GetSize = v.GetCapacity → v.GetCapacity = 0 →
          v1.GetCapacity = 1 ∧ v2.GetCapacity = 1)
      ∧ (v.GetSize = v.GetCapacity → 0 < v.GetCapacity →
          v1.GetCapacity = 2 * v.GetCapacity ∧ v2.GetCapacity = 2 * v.GetCapacity)
      ∧ (v.GetSize < v.GetCapacity →
          v1.GetCapacity = v.GetCapacity ∧ v2.GetCapacity = v.GetCapacity)
      ∧ (∀ item h' v', PushBack h v item = .ok (h', v') →
          v'.GetCapacity
            = if v.GetSize = v.GetCapacity then max (2 * v.GetSize) 1 else v.GetCapacity)
      ∧ (∀ item pos h' v' it',
          Insert h v pos item = .ok (h', v', it') ∨ Insert_move h v pos item = .ok (h', v', it') →
          v'.GetCapacity
            = if v.GetSize = v.GetCapacity then max (2 * v.GetSize) 1 else v.GetCapacity) := by
  obtain ⟨h1, v1, he1, _, _, hc1, _⟩ := SimpleVector.PushBack_spec h v x hw
  obtain ⟨h2, v2, he2, _, _, hc2, _⟩ := SimpleVector.Insert_spec h v k x hw hk
  simp only [GetSize, GetCapacity] at hk ⊢
  refine ⟨h1, v1, h2, v2, _, he1, he2, ?_, ?_, ?_, ?_, ?_, ?_, ?_⟩
  · rw [SimpleVector.Insert_move_eq]
    exact he2
  · intro hc
    rw [hc1, hc2, if_pos hc]
    constructor <;> omega
  · intro hc h0
    rw [hc1, hc2, if_pos hc]
    constructor <;> omega
  · intro hc h0
    rw [hc1, hc2, if_pos hc]
    constructor <;> omega
  · intro hc
    rw [hc1, hc2, if_neg (by omega)]
    exact ⟨rfl, rfl⟩
  · intro item h' v' he
    rw [(SimpleVector.PushBack_fields he).2, Nat.mul_comm]
  · intro item pos h' v' it' he
    rw [SimpleVector.Insert_move_eq, or_self] at he
    rw [(SimpleVector.Insert_fields he).2, Nat.mul_comm]

theorem growth_policy_witness :
    (WF ([some [1, 2, 3]] : Heap Nat) ⟨⟨some 0⟩, 3, 3⟩ ∧ 1 ≤ GetSize ⟨⟨some 0⟩, 3, 3⟩ ∧
      ∃ h1 v1 h2 v2 it, PushBack ([some [1, 2, 3]] : Heap Nat) ⟨⟨some 0⟩, 3, 3⟩ (.object 9)
          = .ok (h1, v1)
        ∧ Insert ([some [1, 2, 3]] : Heap Nat) ⟨⟨some 0⟩, 3, 3⟩ ((begin ⟨⟨some 0⟩, 3, 3⟩).add 1)
            (.object 9)
            = .ok (h2, v2, it)
        ∧ v1.GetCapacity = 2 * GetCapacity ⟨⟨some 0⟩, 3, 3⟩
        ∧ v2.GetCapacity = 2 * GetCapacity ⟨⟨some 0⟩, 3, 3⟩)
    ∧ (WF ([] : Heap Nat) ⟨⟨none⟩, 0, 0⟩ ∧ 0 ≤ GetSize ⟨⟨none⟩, 0, 0⟩ ∧
      ∃ h1 v1 h2 v2 it, PushBack ([] : Heap Nat) ⟨⟨none⟩, 0, 0⟩ (.object 9) = .ok (h1, v1)
        ∧ Insert ([] : Heap Nat) ⟨⟨none⟩, 0, 0⟩ ((begin ⟨⟨none⟩, 0, 0⟩).add 0) (.object 9)
            = .ok (h2, v2, it)
        ∧ v1.GetCapacity = 1 ∧ v2.GetCapacity = 1)
    ∧ (WF ([some [1, 2, 3]] : Heap Nat) ⟨⟨some 0⟩, 2, 3⟩ ∧ 1 ≤ GetSize ⟨⟨some 0⟩, 2, 3⟩ ∧
      ∃ h1 v1 h2 v2 it, PushBack ([some [1, 2, 3]] : Heap Nat) ⟨⟨some 0⟩, 2, 3⟩ (.object 9)
          = .ok (h1, v1)
        ∧ Insert ([some [1, 2, 3]] : Heap Nat) ⟨⟨some 0⟩, 2, 3⟩ ((begin ⟨⟨some 0⟩, 2, 3⟩).add 1)
            (.object 9)
            = .ok (h2, v2, it)
        ∧ v1.GetCapacity = GetCapacity ⟨⟨some 0⟩, 2, 3⟩
        ∧ v2.GetCapacity = GetCapacity ⟨⟨some 0⟩, 2, 3⟩) := by
  refine ⟨?_, ?_, ?_⟩
  · obtain ⟨h1, v1, h2, v2, it, he1, he2, _, _, _, hc, _, _, _⟩ :=
      growth_policy ([some [1, 2, 3]] : Heap Nat) ⟨⟨some 0⟩, 3, 3⟩ 9 1 (by decide) (by decide)
    exact ⟨by decide, by decide, h1, v1, h2, v2, it, he1, he2, hc (by decide) (by decide)⟩
  · obtain ⟨h1, v1, h2, v2, it, he1, he2, _, _, hc, _, _, _, _⟩ :=
      growth_policy ([] : Heap Nat) ⟨⟨none⟩, 0, 0⟩ 9 0 (by decide) (by decide)
    exact ⟨by decide, by decide, h1, v1, h2, v2, it, he1, he2, hc (by decide) (by decide)⟩
  · obtain ⟨h1, v1, h2, v2, it, he1, he2, _, _, _, _, hc, _, _⟩ :=
      growth_policy ([some [1, 2, 3]] : Heap Nat) ⟨⟨some 0⟩, 2, 3⟩ 9 1 (by decide) (by decide)
    exact ⟨by decide, by decide, h1, v1, h2, v2, it, he1, he2, hc (by decide)⟩

/-- C12 as stated fails: on the well-formed vector of capacity 100 and size 0, `Resize(1)`
returns a vector of capacity 2. -/
theorem Resize_capacity_can_decrease :
    ¬ ∀ (h h' : Heap Nat) (v v' : SimpleVector) (n : Nat), WF h v →
      Resize h v n = .ok (h', v') → v.GetCapacity ≤ v'.GetCapacity := by
  intro hall
  have hle := hall [some (List.replicate 100 0)] [none, some [0, 0]] ⟨⟨some 0⟩, 0, 100⟩
    ⟨⟨some 1⟩, 1, 2⟩ 1 (by decide) (by rfl)
  exact absurd hle (by decide)

/-- C12, amended. On a vector whose live elements are inside its buffer, and for a `newSize`
that is at most the size or whose double is below `2^64` (so that `new_size * 2` does not wrap),
`Resize(newSize)` returns. When `newSize <= size` the capacity is the same as before; when
`newSize > size` the capacity afterwards is exactly `2 * newSize`, whatever it was before. So
the capacity does not decrease when `newSize <= size` or `2 * newSize` is at least the old
capacity. -/
theorem Resize_capacity [Inhabited T] (h : Heap T) (v : SimpleVector) (n : Nat)
    (hl : Live h v) (hb : n ≤ v.GetSize ∨ 2 * n < 2 ^ 64) :
    ∃ h' v', Resize h v n = .ok (h', v')
      ∧ (n ≤ v.GetSize → v'.GetCapacity = v.GetCapacity)
      ∧ (v.GetSize < n → v'.GetCapacity = 2 * n)
      ∧ (n ≤ v.GetSize ∨ v.GetCapacity ≤ 2 * n → v.GetCapacity ≤ v'.GetCapacity) := by
  simp only [GetSize, GetCapacity] at hb ⊢
  by_cases hn : v.size_ < n
  · obtain ⟨h', he, _, _⟩ := SimpleVector.Resize_spec h v n hl hn (by omega)
    refine ⟨h', _, he, ?_, ?_, ?_⟩
    · intro hle
      omega
    · intro _
      show n * 2 = 2 * n
      omega
    · intro hor
      show v.capacity_ ≤ n * 2
      omega
  · refine ⟨h, _, SimpleVector.Resize_shrink h v n hn, fun _ => rfl, fun hlt => absurd hlt hn,
      fun _ => Nat.le_refl _⟩

theorem Resize_capacity_witness :
    Live ([some [1, 2, 3]] : Heap Nat) ⟨⟨some 0⟩, 2, 3⟩ ∧
    1 ≤ GetSize ⟨⟨some 0⟩, 2, 3⟩ ∧ 2 * 5 < 2 ^ 64 ∧
    (∃ h' v', Resize ([some [1, 2, 3]] : Heap Nat) ⟨⟨some 0⟩, 2, 3⟩ 1 = .ok (h', v')
      ∧ v'.GetCapacity = GetCapacity ⟨⟨some 0⟩, 2, 3⟩) ∧
    (∃ h' v', Resize ([some [1, 2, 3]] : Heap Nat) ⟨⟨some 0⟩, 2, 3⟩ 5 = .ok (h', v')
      ∧ v'.GetCapacity = 2 * 5 ∧ GetCapacity ⟨⟨some 0⟩, 2, 3⟩ ≤ v'.GetCapacity) := by
  refine ⟨by decide, by decide, by decide, ?_, ?_⟩
  · obtain ⟨h', v', he, hc, _, _⟩ :=
      Resize_capacity ([some [1, 2, 3]] : Heap Nat) ⟨⟨some 0⟩, 2, 3⟩ 1 (by decide)
        (Or.inl (by decide))
    exact ⟨h', v', he, hc (by decide)⟩
  · obtain ⟨h', v', he, _, hc, hle⟩ :=
      Resize_capacity ([some [1, 2, 3]] : Heap Nat) ⟨⟨some 0⟩, 2, 3⟩ 5 (by decide)
        (Or.inr (by decide))
    exact ⟨h', v', he, hc (by decide), hle (Or.inr (by decide))⟩

/-- C19 as stated fails: on the well-formed vector `{1, 2, 3}` of capacity 3 and for
`newSize = 2^63 + 1`, a value of `size_t`, the product `new_size * 2` wraps to 2, `ReCapacity`
allocates 2 slots and moves the 3 live elements into them, so `Resize` does not return a
vector of size `newSize`: the behaviour is undefined. -/
theorem Resize_doubling_wraps :
    ¬ ∀ (h : Heap Nat) (v : SimpleVector) (n : Nat), n < 2 ^ 64 → WF h v →
      ∃ h' v', Resize h v n = .ok (h', v') ∧ v'.GetSize = n
        ∧ (toList h' v').take (min v.GetSize n) = (toList h v).take (min v.GetSize n) := by
  intro hall
  obtain ⟨h', v', he, _⟩ :=
    hall [some [1, 2, 3]] ⟨⟨some 0⟩, 3, 3⟩ (2 ^ 63 + 1) (by decide) (by decide)
  have hcalc : Resize ([some [1, 2, 3]] : Heap Nat) ⟨⟨some 0⟩, 3, 3⟩ (2 ^ 63 + 1)
      = .error .undefined_behaviour := rfl
  rw [hcalc] at he
  cases he

/-- C19, amended. On a vector whose live elements `xs` are inside its buffer, and for a
`newSize` that is at most the size or whose double is below `2^64` (so that `new_size * 2` does
not wrap), `Resize(newSize)` returns, `GetSize()` is `newSize` afterwards, and every index below
`min(old size, newSize)` holds the element of `xs` it held before. When `newSize <= old size`
the store, the buffer and the capacity are the ones before the call. -/
theorem Resize_keeps_elements [Inhabited T] (h : Heap T) (v : SimpleVector) (n : Nat)
    (hl : Live h v) (hb : n ≤ v.GetSize ∨ 2 * n < 2 ^ 64) :
    ∃ h' v', Resize h v n = .ok (h', v')
      ∧ v'.GetSize = n
      ∧ (∀ i, i < min v.GetSize n → ∃ x, index h v i = .ok x ∧ index h' v' i = .ok x)
      ∧ (toList h' v').take (min v.GetSize n) = (toList h v).take (min v.GetSize n)
      ∧ (n ≤ v.GetSize →
          h' = h ∧ v'.items_ = v.items_ ∧ v'.GetCapacity = v.GetCapacity
            ∧ toList h' v' = (toList h v).take n) := by
  simp only [GetSize, GetCapacity] at hb ⊢
  have hlen := SimpleVector.toList_length hl
  by_cases hn : v.size_ < n
  · obtain ⟨h', he, hblk, _⟩ := SimpleVector.Resize_spec h v n hl hn (by omega)
    have hmin : min v.size_ n = v.size_ := by omega
    have hlst : toList h' ⟨⟨some h.length⟩, n, n * 2⟩
        = (toList h v ++ List.replicate (n * 2 - v.size_) default).take n :=
      SimpleVector.toList_of_block (v := ⟨⟨some h.length⟩, n, n * 2⟩) rfl hblk
    have hpre : (toList h' ⟨⟨some h.length⟩, n, n * 2⟩).take v.size_ = toList h v := by
      rw [hlst, List.take_take, Nat.min_eq_left (by omega),
        List.take_append_of_le_length (by omega), List.take_of_length_le (by omega)]
    refine ⟨h', _, he, rfl, ?_, ?_, ?_⟩
    · intro i hi
      obtain ⟨x, hx1, hx2⟩ := SimpleVector.index_of_live hl i (by omega)
      refine ⟨x, hx1, ?_⟩
      rw [SimpleVector.index_ok_iff, ← hx2, ← hpre, List.getElem?_take, if_pos (by omega)]
    · rw [hmin, hpre, List.take_of_length_le (by omega)]
    · intro hle
      omega
  · have hmin : min v.size_ n = n := by omega
    have hlst : toList h { v with size_ := n } = (toList h v).take n := by
      simp only [toList, cells, List.take_take]
      rw [Nat.min_eq_left (by omega)]
    refine ⟨h, _, SimpleVector.Resize_shrink h v n hn, rfl, ?_, ?_, ?_⟩
    · intro i hi
      obtain ⟨x, hx1, hx2⟩ := SimpleVector.index_of_live hl i (by omega)
      refine ⟨x, hx1, ?_⟩
      rw [SimpleVector.index_ok_iff, hlst, List.getElem?_take, if_pos (by omega)]
      exact hx2
    · rw [hmin, hlst, List.take_take, Nat.min_self]
    · intro _
      exact ⟨rfl, rfl, rfl, hlst⟩

theorem Resize_keeps_elements_witness :
    Live ([some [1, 2, 3]] : Heap Nat) ⟨⟨some 0⟩, 3, 3⟩ ∧
    2 ≤ GetSize ⟨⟨some 0⟩, 3, 3⟩ ∧ 2 * 5 < 2 ^ 64 ∧
    (∃ h' v', Resize ([some [1, 2, 3]] : Heap Nat) ⟨⟨some 0⟩, 3, 3⟩ 2 = .ok (h', v')
      ∧ v'.GetSize = 2
      ∧ h' = [some [1, 2, 3]] ∧ v'.items_ = ⟨some 0⟩ ∧ v'.GetCapacity = 3
      ∧ toList h' v' = (toList ([some [1, 2, 3]] : Heap Nat) ⟨⟨some 0⟩, 3, 3⟩).take 2) ∧
    (∃ h' v', Resize ([some [1, 2, 3]] : Heap Nat) ⟨⟨some 0⟩, 3, 3⟩ 5 = .ok (h', v')
      ∧ v'.GetSize = 5
      ∧ (toList h' v').take (min (GetSize ⟨⟨some 0⟩, 3, 3⟩) 5)
          = (toList ([some [1, 2, 3]] : Heap Nat) ⟨⟨some 0⟩, 3, 3⟩).take
              (min (GetSize ⟨⟨some 0⟩, 3, 3⟩) 5)) := by
  refine ⟨by decide, by decide, by decide, ?_, ?_⟩
  · obtain ⟨h', v', he, hs, _, _, hsh⟩ :=
      Resize_keeps_elements ([some [1, 2, 3]] : Heap Nat) ⟨⟨some 0⟩, 3, 3⟩ 2 (by decide)
        (Or.inl (by decide))
    obtain ⟨e1, e2, e3, e4⟩ := hsh (by decide)
    exact ⟨h', v', he, hs, e1, e2, e3, e4⟩
  · obtain ⟨h', v', he, hs, _, hpre, _⟩ :=
      Resize_keeps_elements ([some [1, 2, 3]] : Heap Nat) ⟨⟨some 0⟩, 3, 3⟩ 5 (by decide)
        (Or.inr (by decide))
    exact ⟨h', v', he, hs, hpre⟩

/-- C13. Copy assignment `a = b` between two vectors with separate buffers, where the buffer
of `a` is null or a live block and the live elements of `b` are inside its buffer, returns;
afterwards `a` has the size and the live elements of `b` in order, and the elements of `b` are
what they were. When `b` is empty the store, the buffer and the capacity of `a` are retained.
When `a` and `b` are the same object the store and the vector are exactly what they were. -/
theorem copy_assign_copies [Inhabited T] (h : Heap T) (a b : SimpleVector)
    (ha : allocated h a ≠ none) (hb : Live h b)
    (hsep : ∀ p, a.items_.raw_ptr_ = some p → b.items_.raw_ptr_ ≠ some p) :
    (∃ h' a', copy_assign h a (some b) = .ok (h', a')
      ∧ a'.GetSize = b.GetSize
      ∧ toList h' a' = toList h b
      ∧ toList h' b = toList h b
      ∧ (b.IsEmpty = true → h' = h ∧ a'.items_ = a.items_ ∧ a'.GetCapacity = a.GetCapacity))
    ∧ copy_assign h a none = .ok (h, a) := by
  refine ⟨?_, rfl⟩
  obtain ⟨m, hm⟩ := Option.ne_none_iff_exists'.mp ha
  have hlen := SimpleVector.toList_length hb
  by_cases h0 : b.size_ = 0
  · have hnil : toList h b = [] := List.length_eq_zero.mp (by omega)
    refine ⟨h, a.Clear, ?_, ?_, ?_, rfl, fun _ => ⟨rfl, rfl, rfl⟩⟩
    · simp [copy_assign, SimpleVector.IsEmpty, h0, pure, Except.pure]
    · simp [GetSize, Clear, h0]
    · rw [hnil]
      simp [toList, Clear]
  · obtain ⟨h', he, hblk, hframe⟩ := SimpleVector.copy_assign_spec h a b m hm hb h0
    refine ⟨h', _, he, rfl, ?_, ?_, ?_⟩
    · rw [SimpleVector.toList_of_block (v := ⟨⟨some h.length⟩, b.size_, b.capacity_⟩) rfl hblk]
      show List.take b.size_ _ = _
      exact List.take_of_length_le (by omega)
    · rcases SimpleVector.Live_cases hb with ⟨_, h1⟩ | ⟨pb, cs, hpb, hbb, hsb⟩
      · omega
      · have hpl := Heap.block_some_lt hbb
        have hne : a.items_.raw_ptr_ ≠ some pb := by
          intro e
          exact hsep pb e hpb
        rw [SimpleVector.toList_of_block hpb (by rw [hframe pb hpl hne]; exact hbb),
          SimpleVector.toList_of_block hpb hbb]
    · intro hemp
      simp [SimpleVector.IsEmpty, h0] at hemp

theorem copy_assign_copies_witness :
    allocated ([some [7], some [1, 2, 3]] : Heap Nat) ⟨⟨some 0⟩, 1, 1⟩ ≠ none ∧
    Live ([some [7], some [1, 2, 3]] : Heap Nat) ⟨⟨some 1⟩, 2, 3⟩ ∧
    (∀ p, (⟨⟨some 0⟩, 1, 1⟩ : SimpleVector).items_.raw_ptr_ = some p →
      (⟨⟨some 1⟩, 2, 3⟩ : SimpleVector).items_.raw_ptr_ ≠ some p) ∧
    (∃ h' a', copy_assign ([some [7], some [1, 2, 3]] : Heap Nat) ⟨⟨some 0⟩, 1, 1⟩
        (some ⟨⟨some 1⟩, 2, 3⟩) = .ok (h', a')
      ∧ a'.GetSize = GetSize ⟨⟨some 1⟩, 2, 3⟩
      ∧ toList h' a' = toList ([some [7], some [1, 2, 3]] : Heap Nat) ⟨⟨some 1⟩, 2, 3⟩
      ∧ toList h' ⟨⟨some 1⟩, 2, 3⟩
          = toList ([some [7], some [1, 2, 3]] : Heap Nat) ⟨⟨some 1⟩, 2, 3⟩) ∧
    (∃ h' a', copy_assign ([some [7], some [1, 2, 3]] : Heap Nat) ⟨⟨some 0⟩, 1, 1⟩
        (some ⟨⟨some 1⟩, 0, 3⟩) = .ok (h', a')
      ∧ h' = [some [7], some [1, 2, 3]] ∧ a'.items_ = ⟨some 0⟩ ∧ a'.GetCapacity = 1) := by
  refine ⟨by decide, by decide, by decide, ?_, ?_⟩
  · obtain ⟨⟨h', a', he, hs, hl, hlb, _⟩, _⟩ :=
      copy_assign_copies ([some [7], some [1, 2, 3]] : Heap Nat) ⟨⟨some 0⟩, 1, 1⟩
        ⟨⟨some 1⟩, 2, 3⟩ (by decide) (by decide) (by decide)
    exact ⟨h', a', he, hs, hl, hlb⟩
  · obtain ⟨⟨h', a', he, _, _, _, hemp⟩, _⟩ :=
      copy_assign_copies ([some [7], some [1, 2, 3]] : Heap Nat) ⟨⟨some 0⟩, 1, 1⟩
        ⟨⟨some 1⟩, 0, 3⟩ (by decide) (by decide) (by decide)
    obtain ⟨e1, e2, e3⟩ := hemp (by decide)
    exact ⟨h', a', he, e1, e2, e3⟩

theorem SimpleVector.toList_eq_iff_index {h : Heap T} {a b : SimpleVector} (ha : Live h a)
    (hb : Live h b) (hs : a.size_ = b.size_) :
    toList h a = toList h b ↔ ∀ i, i < a.size_ → index h a i = index h b i := by
  have hla := SimpleVector.toList_length ha
  have hlb := SimpleVector.toList_length hb
  constructor
  · intro he i hi
    obtain ⟨x, hx1, hx2⟩ := SimpleVector.index_of_live ha i hi
    rw [hx1]
    symm
    rw [SimpleVector.index_ok_iff, ← he]
    exact hx2
  · intro hall
    apply List.ext_getElem?
    intro i
    by_cases hi : i < a.size_
    · obtain ⟨x, hx1, hx2⟩ := SimpleVector.index_of_live ha i hi
      have hbx : index h b i = .ok x := by rw [← hall i hi]; exact hx1
      rw [hx2]
      symm
      exact (SimpleVector.index_ok_iff h b i x).mp hbx
    · rw [List.getElem?_eq_none (by omega), List.getElem?_eq_none (by omega)]

/-- C14. For two vectors of equal size whose live elements are inside their buffers, `a == b`
returns, and it is true exactly when `a[i]` equals `b[i]` for every `i` below the size. On such
vectors `==` is reflexive and symmetric, and `a != b` is the negation of `a == b`. -/
theorem eq_elementwise [DecidableEq T] (h : Heap T) (a b : SimpleVector)
    (ha : Live h a) (hb : Live h b) (hs : a.GetSize = b.GetSize) :
    (∃ r, eq h a b = .ok r ∧ ne h a b = .ok (!r))
      ∧ (eq h a b = .ok true ↔ ∀ i, i < a.GetSize → index h a i = index h b i)
      ∧ eq h a a = .ok true
      ∧ eq h a b = eq h b a := by
  simp only [GetSize] at hs ⊢
  have hla := SimpleVector.toList_length ha
  have hlb := SimpleVector.toList_length hb
  have hab := SimpleVector.eq_spec h a b ha hb (by omega)
  have hba := SimpleVector.eq_spec h b a hb ha (by omega)
  have haa := SimpleVector.eq_spec h a a ha ha (Nat.le_refl _)
  rw [List.take_of_length_le (by omega)] at hab hba haa
  refine ⟨⟨_, hab, ?_⟩, ?_, ?_, ?_⟩
  · simp [ne, hab, bind, Except.bind, pure, Except.pure]
  · rw [hab, ← SimpleVector.toList_eq_iff_index ha hb hs]
    simp
  · rw [haa]
    simp
  · rw [hab, hba]
    congr 1
    simp only [decide_eq_decide]
    exact eq_comm

theorem eq_elementwise_witness :
    Live ([some [1, 2, 3], some [1, 2, 4]] : Heap Nat) ⟨⟨some 0⟩, 2, 3⟩ ∧
    Live ([some [1, 2, 3], some [1, 2, 4]] : Heap Nat) ⟨⟨some 1⟩, 2, 3⟩ ∧
    GetSize ⟨⟨some 0⟩, 2, 3⟩ = GetSize ⟨⟨some 1⟩, 2, 3⟩ ∧
    (∃ r, eq ([some [1, 2, 3], some [1, 2, 4]] : Heap Nat) ⟨⟨some 0⟩, 2, 3⟩ ⟨⟨some 1⟩, 2, 3⟩
        = .ok r
      ∧ ne ([some [1, 2, 3], some [1, 2, 4]] : Heap Nat) ⟨⟨some 0⟩, 2, 3⟩ ⟨⟨some 1⟩, 2, 3⟩
        = .ok (!r))
    ∧ (eq ([some [1, 2, 3], some [1, 2, 4]] : Heap Nat) ⟨⟨some 0⟩, 2, 3⟩ ⟨⟨some 1⟩, 2, 3⟩
        = .ok true ↔
      ∀ i, i < GetSize ⟨⟨some 0⟩, 2, 3⟩ →
        index ([some [1, 2, 3], some [1, 2, 4]] : Heap Nat) ⟨⟨some 0⟩, 2, 3⟩ i
          = index ([some [1, 2, 3], some [1, 2, 4]] : Heap Nat) ⟨⟨some 1⟩, 2, 3⟩ i)
    ∧ eq ([some [1, 2, 3], some [1, 2, 4]] : Heap Nat) ⟨⟨some 0⟩, 2, 3⟩ ⟨⟨some 0⟩, 2, 3⟩
        = .ok true
    ∧ eq ([some [1, 2, 3], some [1, 2, 4]] : Heap Nat) ⟨⟨some 0⟩, 2, 3⟩ ⟨⟨some 1⟩, 2, 3⟩
        = eq ([some [1, 2, 3], some [1, 2, 4]] : Heap Nat) ⟨⟨some 1⟩, 2, 3⟩ ⟨⟨some 0⟩, 2, 3⟩ :=
  ⟨by decide, by decide, by decide, eq_elementwise _ _ _ (by decide) (by decide) (by decide)⟩

/-- C20. For two vectors whose live elements are inside their buffers and with
`a.size <= b.size`, `a == b` returns, and it is true exactly when the live elements of `a` are
the first `a.size` live elements of `b`: the size of `b` is not looked at. An empty `a`
compares equal to every vector. -/
theorem eq_reads_lhs_size_only [DecidableEq T] (h : Heap T) (a b : SimpleVector) :
    (Live h a → Live h b → a.GetSize ≤ b.GetSize →
      (∃ r, eq h a b = .ok r)
        ∧ (eq h a b = .ok true ↔ toList h a = (toList h b).take a.GetSize))
      ∧ (a.GetSize = 0 → eq h a b = .ok true) := by
  simp only [GetSize]
  constructor
  · intro ha hb hs
    have hab := SimpleVector.eq_spec h a b ha hb hs
    refine ⟨⟨_, hab⟩, ?_⟩
    rw [hab]
    simp
  · intro h0
    simp [eq, std_equal, begin, end_, ArrayPtr.Get, Ptr.add, Ptr.diff, h0, equal_n]

theorem eq_reads_lhs_size_only_witness :
    Live ([some [1, 2], some [1, 2, 3]] : Heap Nat) ⟨⟨some 0⟩, 2, 2⟩ ∧
    Live ([some [1, 2], some [1, 2, 3]] : Heap Nat) ⟨⟨some 1⟩, 3, 3⟩ ∧
    GetSize ⟨⟨some 0⟩, 2, 2⟩ ≤ GetSize ⟨⟨some 1⟩, 3, 3⟩ ∧
    toList ([some [1, 2], some [1, 2, 3]] : Heap Nat) ⟨⟨some 0⟩, 2, 2⟩ = [1, 2] ∧
    toList ([some [1, 2], some [1, 2, 3]] : Heap Nat) ⟨⟨some 1⟩, 3, 3⟩ = [1, 2, 3] ∧
    eq ([some [1, 2], some [1, 2, 3]] : Heap Nat) ⟨⟨some 0⟩, 2, 2⟩ ⟨⟨some 1⟩, 3, 3⟩ = .ok true ∧
    GetSize ⟨⟨none⟩, 0, 0⟩ = 0 ∧
    eq ([some [1, 2], some [1, 2, 3]] : Heap Nat) ⟨⟨none⟩, 0, 0⟩ ⟨⟨some 1⟩, 3, 3⟩ = .ok true :=
  ⟨by decide, by decide, by decide, rfl, rfl,
    ((eq_reads_lhs_size_only _ _ _).1 (by decide) (by decide) (by decide)).2.mpr rfl,
    rfl, (eq_reads_lhs_size_only _ _ _).2 rfl⟩

/-- C17 as stated fails: when the destination owns block 0 and the source owns block 1, after
`dst = std::move(src)` the source owns block 0 and converts to `true`. -/
theorem ArrayPtr_move_assign_source_not_empty :
    ¬ ∀ (dst src : ArrayPtr), (ArrayPtr.move_assign dst src).1.raw_ptr_ = src.raw_ptr_
      ∧ (ArrayPtr.move_assign dst src).2.to_bool = false := by
  intro hall
  have hsrc : (ArrayPtr.move_assign ⟨some 0⟩ ⟨some 1⟩).2.to_bool = false := (hall ⟨some 0⟩ ⟨some 1⟩).2
  have hown : (ArrayPtr.move_assign ⟨some 0⟩ ⟨some 1⟩).2.raw_ptr_ = some 0 := rfl
  exact absurd hsrc (by decide)

/-- C17, amended. After the move assignment `dst = std::move(src)` of two distinct `ArrayPtr`
objects, `dst` owns the allocation `src` owned before and `src` owns the allocation `dst`
owned before: `src` is empty (converts to `false`) exactly when `dst` was empty beforehand. -/
theorem ArrayPtr_move_assign_exchanges (dst src : ArrayPtr) :
    (ArrayPtr.move_assign dst src).1.raw_ptr_ = src.raw_ptr_
      ∧ (ArrayPtr.move_assign dst src).1.to_bool = src.to_bool
      ∧ (ArrayPtr.move_assign dst src).2.raw_ptr_ = dst.raw_ptr_
      ∧ ((ArrayPtr.move_assign dst src).2.to_bool = false ↔ dst.to_bool = false)
      ∧ (ArrayPtr.move_assign ⟨none⟩ src).2.raw_ptr_ = none :=
  ⟨rfl, rfl, rfl, Iff.rfl, rfl⟩

theorem SimpleVector.load_of_toList {h : Heap T} {v : SimpleVector} {i : Nat} {x : T}
    (hx : (toList h v)[i]? = some x) : h.load (v.begin.add i) = .ok x := by
  unfold toList cells at hx
  simp only [List.getElem?_take] at hx
  unfold Heap.load begin ArrayPtr.Get Ptr.add
  simp only [Nat.zero_add]
  split at hx
  · cases hb : h.block v.items_.raw_ptr_ with
    | none => simp [hb] at hx
    | some cs =>
      simp only [hb, Option.getD_some] at hx
      simp [hx]
  · cases hx

theorem lexicographical_compare_n_spec [LinearOrder T] (h : Heap T) (xs : List T) :
    ∀ (ys : List T) (p q : Ptr),
    (∀ i x, xs[i]? = some x → h.load (p.add i) = .ok x) →
    (∀ i y, ys[i]? = some y → h.load (q.add i) = .ok y) →
    ∃ r, lexicographical_compare_n h p q xs.length ys.length = .ok r
      ∧ (r = true ↔ List.Lex (· < ·) xs ys) := by
  induction xs with
  | nil =>
    intro ys p q _ _
    cases ys with
    | nil => exact ⟨false, rfl, by simp⟩
    | cons y ys => exact ⟨true, rfl, by simp [List.Lex.nil]⟩
  | cons x xs ih =>
    intro ys p q hp hq
    cases ys with
    | nil => exact ⟨false, rfl, by simp⟩
    | cons y ys =>
      have hlx : h.load p = .ok x := hp 0 x (by simp)
      have hly : h.load q = .ok y := hq 0 y (by simp)
      simp only [List.length_cons, lexicographical_compare_n, hlx, hly, bind, Except.bind, pure,
        Except.pure]
      by_cases hxy : x < y
      · exact ⟨true, by simp [hxy], by simp [List.Lex.rel hxy]⟩
      · by_cases hyx : y < x
        · refine ⟨false, by simp [hxy, hyx], ?_⟩
          constructor
          · intro hf
            cases hf
          · intro hlex
            cases hlex with
            | cons _ => exact absurd hyx (lt_irrefl _)
            | rel hr => exact absurd hr hxy
        · have hxeq : x = y := le_antisymm (not_lt.mp hyx) (not_lt.mp hxy)
          subst hxeq
          obtain ⟨r, hr, hiff⟩ := ih ys (p.add 1) (q.add 1)
            (fun i z hz => by
              have := hp (i + 1) z (by simpa using hz)
              have e : (p.add 1).add i = p.add (i + 1) := by
                simp only [Ptr.add]
                congr 1
                omega
              rw [e]
              exact this)
            (fun i z hz => by
              have := hq (i + 1) z (by simpa using hz)
              have e : (q.add 1).add i = q.add (i + 1) := by
                simp only [Ptr.add]
                congr 1
                omega
              rw [e]
              exact this)
          refine ⟨r, by simp [hxy, hr], ?_⟩
          rw [hiff]
          exact List.Lex.cons_iff.symm

theorem SimpleVector.lt_spec [LinearOrder T] (h : Heap T) (a b : SimpleVector)
    (ha : Live h a) (hb : Live h b) :
    ∃ r, SimpleVector.lt h a b = .ok r
      ∧ (r = true ↔ List.Lex (· < ·) (toList h a) (toList h b)) := by
  have hla := SimpleVector.toList_length ha
  have hlb := SimpleVector.toList_length hb
  have := lexicographical_compare_n_spec h (toList h a) (toList h b) a.begin b.begin
    (fun i x hx => SimpleVector.load_of_toList hx) (fun i y hy => SimpleVector.load_of_toList hy)
  rw [hla, hlb] at this
  simpa [SimpleVector.lt, std_lexicographical_compare, begin, end_, ArrayPtr.Get, Ptr.add,
    Ptr.diff] using this

theorem lex_not_iff [LinearOrder T] (A B : List T) :
    ¬ List.Lex (· < ·) B A ↔ (List.Lex (· < ·) A B ∨ A = B) := by
  constructor
  · intro hn
    rcases trichotomous_of (List.Lex (fun (x y : T) => x < y)) A B with hlt | heq | hgt
    · exact Or.inl hlt
    · exact Or.inr heq
    · exact absurd hgt hn
  · intro hor hba
    rcases hor with hab | heq
    · exact asymm_of (List.Lex (fun (x y : T) => x < y)) hab hba
    · subst heq
      exact asymm_of (List.Lex (fun (x y : T) => x < y)) hba hba

/-- C15. For two vectors over a linearly ordered element type whose live elements are inside
their buffers, the six comparisons return; `a < b` is true exactly when the live elements of
`a` are lexicographically less than those of `b`, `a > b` is `b < a`, and for vectors of equal
size `a <= b` is true exactly when `a < b` or `a == b` is true, and `a >= b` is true exactly
when `b < a` or `a == b` is true. -/
theorem lt_lexicographic [LinearOrder T] (h : Heap T) (a b : SimpleVector)
    (ha : Live h a) (hb : Live h b) :
    ((∃ r, SimpleVector.lt h a b = .ok r) ∧ (∃ r, SimpleVector.le h a b = .ok r)
        ∧ (∃ r, SimpleVector.gt h a b = .ok r) ∧ (∃ r, SimpleVector.ge h a b = .ok r))
      ∧ (SimpleVector.lt h a b = .ok true ↔ List.Lex (· < ·) (toList h a) (toList h b))
      ∧ SimpleVector.gt h a b = SimpleVector.lt h b a
      ∧ (a.GetSize = b.GetSize →
          (SimpleVector.le h a b = .ok true ↔
            (SimpleVector.lt h a b = .ok true ∨ SimpleVector.eq h a b = .ok true))
          ∧ (SimpleVector.ge h a b = .ok true ↔
            (SimpleVector.lt h b a = .ok true ∨ SimpleVector.eq h a b = .ok true))) := by
  obtain ⟨r1, h1, i1⟩ := SimpleVector.lt_spec h a b ha hb
  obtain ⟨r2, h2, i2⟩ := SimpleVector.lt_spec h b a hb ha
  have hle : SimpleVector.le h a b = .ok (!r2) := by
    simp [SimpleVector.le, h2, bind, Except.bind, pure, Except.pure]
  have hge : SimpleVector.ge h a b = .ok (!r1) := by
    simp [SimpleVector.ge, h1, bind, Except.bind, pure, Except.pure]
  have hgt : SimpleVector.gt h a b = SimpleVector.lt h b a := rfl
  have e1 : SimpleVector.lt h a b = .ok true ↔ List.Lex (· < ·) (toList h a) (toList h b) := by
    rw [h1, ← i1]
    simp
  have e2 : SimpleVector.lt h b a = .ok true ↔ List.Lex (· < ·) (toList h b) (toList h a) := by
    rw [h2, ← i2]
    simp
  refine ⟨⟨⟨r1, h1⟩, ⟨_, hle⟩, ⟨r2, by rw [hgt]; exact h2⟩, ⟨_, hge⟩⟩, e1, hgt, ?_⟩
  intro hs
  simp only [GetSize] at hs
  have hla := SimpleVector.toList_length ha
  have hlb := SimpleVector.toList_length hb
  have heq := SimpleVector.eq_spec h a b ha hb (by omega)
  rw [List.take_of_length_le (by omega)] at heq
  have e3 : SimpleVector.eq h a b = .ok true ↔ toList h a = toList h b := by
    rw [heq]
    simp
  have n1 : SimpleVector.le h a b = .ok true ↔ ¬ List.Lex (· < ·) (toList h b) (toList h a) := by
    rw [hle, ← i2]
    cases r2 <;> simp
  have n2 : SimpleVector.ge h a b = .ok true ↔ ¬ List.Lex (· < ·) (toList h a) (toList h b) := by
    rw [hge, ← i1]
    cases r1 <;> simp
  constructor
  · rw [n1, e1, e3]
    exact lex_not_iff _ _
  · rw [n2, e2, e3, lex_not_iff]
    constructor
    · rintro (hl | he)
      · exact Or.inl hl
      · exact Or.inr he.symm
    · rintro (hl | he)
      · exact Or.inl hl
      · exact Or.inr he.symm

theorem lt_lexicographic_witness :
    Live ([some [1, 2, 3], some [1, 3]] : Heap Nat) ⟨⟨some 0⟩, 3, 3⟩ ∧
    Live ([some [1, 2, 3], some [1, 3]] : Heap Nat) ⟨⟨some 1⟩, 2, 2⟩ ∧
    SimpleVector.lt ([some [1, 2, 3], some [1, 3]] : Heap Nat) ⟨⟨some 0⟩, 3, 3⟩ ⟨⟨some 1⟩, 2, 2⟩
      = .ok true ∧
    List.Lex (· < ·) (toList ([some [1, 2, 3], some [1, 3]] : Heap Nat) ⟨⟨some 0⟩, 3, 3⟩)
      (toList ([some [1, 2, 3], some [1, 3]] : Heap Nat) ⟨⟨some 1⟩, 2, 2⟩) ∧
    GetSize ⟨⟨some 0⟩, 2, 3⟩ = GetSize ⟨⟨some 1⟩, 2, 2⟩ ∧
    (SimpleVector.le ([some [1, 2, 3], some [1, 3]] : Heap Nat) ⟨⟨some 0⟩, 2, 3⟩ ⟨⟨some 1⟩, 2, 2⟩
        = .ok true ↔
      (SimpleVector.lt ([some [1, 2, 3], some [1, 3]] : Heap Nat) ⟨⟨some 0⟩, 2, 3⟩
          ⟨⟨some 1⟩, 2, 2⟩ = .ok true
        ∨ SimpleVector.eq ([some [1, 2, 3], some [1, 3]] : Heap Nat) ⟨⟨some 0⟩, 2, 3⟩
          ⟨⟨some 1⟩, 2, 2⟩ = .ok true)) ∧
    (SimpleVector.ge ([some [1, 2, 3], some [1, 3]] : Heap Nat) ⟨⟨some 0⟩, 2, 3⟩ ⟨⟨some 1⟩, 2, 2⟩
        = .ok true ↔
      (SimpleVector.lt ([some [1, 2, 3], some [1, 3]] : Heap Nat) ⟨⟨some 1⟩, 2, 2⟩
          ⟨⟨some 0⟩, 2, 3⟩ = .ok true
        ∨ SimpleVector.eq ([some [1, 2, 3], some [1, 3]] : Heap Nat) ⟨⟨some 0⟩, 2, 3⟩
          ⟨⟨some 1⟩, 2, 2⟩ = .ok true)) := by
  have hA := lt_lexicographic ([some [1, 2, 3], some [1, 3]] : Heap Nat) ⟨⟨some 0⟩, 3, 3⟩
    ⟨⟨some 1⟩, 2, 2⟩ (by decide) (by decide)
  have hB := lt_lexicographic ([some [1, 2, 3], some [1, 3]] : Heap Nat) ⟨⟨some 0⟩, 2, 3⟩
    ⟨⟨some 1⟩, 2, 2⟩ (by decide) (by decide)
  have hs : GetSize ⟨⟨some 0⟩, 2, 3⟩ = GetSize ⟨⟨some 1⟩, 2, 2⟩ := rfl
  exact ⟨by decide, by decide, rfl, hA.2.1.mp rfl, hs, (hB.2.2.2 hs).1, (hB.2.2.2 hs).2⟩

end SimpleVectorModel
